import Mathlib

/-!
Verification of the `unlox` Lox implementation.

This file gives a shallow embedding, in Lean 4, of the parts of the
repository that the examined properties are about:

* the generic cactus stack (`unlox-cactus/src/lib.rs`, backed by the
  `slab` crate),
* the lexer (`unlox-lexer/src/lib.rs` with its `Selection`, which in the
  source tracks *byte* offsets into the input string),
* the recursive-descent parser (`unlox-parse/src/lib.rs`) over the arena
  AST (`unlox-ast/src/lib.rs`),
* the slot-reusing environment tree (`unlox-interpreter/src/env.rs`),
* the tree-walking evaluator (`unlox-interpreter/src/lib.rs` with
  `unlox-interpreter/src/val.rs`).

Machine floats (`f64`) are modelled by `ℚ`; every program evaluated in a
theorem below only performs arithmetic that is exact in `f64`, so the two
agree on those runs.  Rust's `&mut` state is passed explicitly, and the
interpreter — whose source can diverge on loops and recursion — takes a
fuel parameter, with an explicit out-of-fuel result that no theorem
conflates with the source's error results.
-/

namespace Unlox

/-! ## The `slab` crate

`unlox-cactus` stores its nodes in a `slab::Slab`.  A slab is a vector of
entries, each either occupied or vacant; vacant entries form a free list
threaded through `vacant` links starting at `next`.  `count` is the
slab's `len` field: the number of occupied entries. -/

inductive Entry (T : Type) where
| vacant (next : Nat)
| occupied (val : T)
deriving DecidableEq

structure Slab (T : Type) where
entries : List (Entry T)
count : Nat
next : Nat
deriving DecidableEq

namespace Slab

def empty {T : Type} : Slab T := ⟨[], 0, 0⟩

/-- Translation of `slab::Slab::insert`: insert at the head of the free
list, or append when the free list is exhausted; returns the key. -/
def insert {T : Type} (s : Slab T) (val : T) : Nat × Slab T :=
let key := s.next
if key = s.entries.length then
  (key, ⟨s.entries ++ [.occupied val], s.count + 1, key + 1⟩)
else
  match s.entries[key]? with
  | some (.vacant n) => (key, ⟨s.entries.set key (.occupied val), s.count + 1, n⟩)
  | _ => (key, s)

/-- Translation of `slab::Slab::try_remove`: vacate an occupied entry,
pushing it onto the free list, and return its value; `none` when the key
is vacant or out of bounds. -/
def tryRemove {T : Type} (s : Slab T) (key : Nat) : Option T × Slab T :=
match s.entries[key]? with
| some (.occupied v) => (some v, ⟨s.entries.set key (.vacant s.next), s.count - 1, key⟩)
| _ => (none, s)

def get? {T : Type} (s : Slab T) (key : Nat) : Option T :=
match s.entries[key]? with
| some (.occupied v) => some v
| _ => none

def contains {T : Type} (s : Slab T) (key : Nat) : Bool :=
(s.get? key).isSome

def set {T : Type} (s : Slab T) (key : Nat) (val : T) : Slab T :=
match s.entries[key]? with
| some (.occupied _) => ⟨s.entries.set key (.occupied val), s.count, s.next⟩
| _ => s

end Slab

/-! ## `unlox-cactus/src/lib.rs`

The cactus ("parent pointer tree"): slab-stored nodes plus a vector of
indices forming the active stack.  The source's `Vec` keeps the top of
the stack at the *end*; the embedding keeps it at the *head* of the
list, so `Vec::last` is `List.head?` and `Vec::pop` is `List.tail`. -/

structure CNode (T : Type) where
data : T
parent : Option Nat
deriving DecidableEq

structure Cactus (T : Type) where
nodes : Slab (CNode T)
stack : List Nat
deriving DecidableEq

namespace Cactus

def new {T : Type} : Cactus T := ⟨Slab.empty, []⟩

def len {T : Type} (c : Cactus T) : Nat := c.nodes.count

def isEmpty {T : Type} (c : Cactus T) : Bool := c.nodes.count = 0

def contains {T : Type} (c : Cactus T) (idx : Nat) : Bool := c.nodes.contains idx

/-- Index of the top node of the active stack (`stack.last()`). -/
def current {T : Type} (c : Cactus T) : Option Nat := c.stack.head?

/-- Translation of `Cactus::push`: insert a node whose parent is the
current top of the stack, and push its index. -/
def push {T : Type} (c : Cactus T) (value : T) : Nat × Cactus T :=
let (idx, nodes) := c.nodes.insert ⟨value, c.current⟩
(idx, ⟨nodes, idx :: c.stack⟩)

/-- Translation of `Cactus::push_at`: insert a node with an explicitly
given parent, and push its index. -/
def pushAt {T : Type} (c : Cactus T) (parent : Nat) (value : T) : Nat × Cactus T :=
let (idx, nodes) := c.nodes.insert ⟨value, some parent⟩
(idx, ⟨nodes, idx :: c.stack⟩)

/-- Translation of `Cactus::pop`:
`let node = self.nodes.try_remove(self.current()?.as_usize())?;
self.stack.pop(); Some(node.data)`.
When `try_remove` fails the `?` returns early, leaving the stack as it
was. -/
def pop {T : Type} (c : Cactus T) : Option T × Cactus T :=
match c.current with
| none => (none, c)
| some i =>
  match c.nodes.tryRemove i with
  | (none, nodes) => (none, ⟨nodes, c.stack⟩)
  | (some node, nodes) => (some node.data, ⟨nodes, c.stack.tail⟩)

/-- Translation of `Cactus::parent`.  The source indexes the slab and
panics on a vacant entry; the embedding returns `none` for both a vacant
entry and a root node, which no theorem below distinguishes. -/
def parent {T : Type} (c : Cactus T) (idx : Nat) : Option Nat :=
match c.nodes.get? idx with
| some n => n.parent
| none => none

def nodeData {T : Type} (c : Cactus T) (idx : Nat) : Option T :=
(c.nodes.get? idx).map (·.data)

/-- Functional rendering of `Cactus::node_data_mut`: replace the data of
an existing node (no node is created or removed). -/
def setNodeData {T : Type} (c : Cactus T) (idx : Nat) (v : T) : Cactus T :=
match c.nodes.get? idx with
| some n => ⟨c.nodes.set idx ⟨v, n.parent⟩, c.stack⟩
| none => c

end Cactus

/-! ### Basic slab lemmas -/

theorem Slab.get?_tryRemove_self {T : Type} (s : Slab T) (key : Nat) :
    ((s.tryRemove key).2.get? key).isSome = false := by
  unfold tryRemove get?
  cases h : s.entries[key]? with
  | none => simp [h]
  | some e =>
    cases e with
    | vacant n => simp [h]
    | occupied v =>
      have hk : key < s.entries.length := (List.getElem?_eq_some.mp h).1
      simp [h, List.getElem?_set_self', hk]

theorem Slab.tryRemove_of_get? {T : Type} (s : Slab T) (key : Nat) (v : T)
    (h : s.get? key = some v) :
    s.tryRemove key = (some v, ⟨s.entries.set key (.vacant s.next), s.count - 1, key⟩) := by
  unfold get? at h
  unfold tryRemove
  cases hg : s.entries[key]? with
  | none => rw [hg] at h; simp at h
  | some e =>
    cases e with
    | vacant n => rw [hg] at h; simp at h
    | occupied w => rw [hg] at h; simp at h; subst h; simp [hg]

theorem Cactus.pop_of_current {T : Type} (c : Cactus T) (i : Nat) (nd : CNode T)
    (h1 : c.current = some i) (h2 : c.nodes.get? i = some nd) :
    c.pop = (some nd.data,
      ⟨⟨c.nodes.entries.set i (.vacant c.nodes.next), c.nodes.count - 1, i⟩,
        c.stack.tail⟩) := by
  unfold pop
  rw [h1]
  simp only [Slab.tryRemove_of_get? c.nodes i nd h2]

/-- Claim C2, counterexample.  The claim says frames are never physically
removed from the cactus and that `pop` refuses to remove the root frame,
returning absent in that case.  On a cactus holding only its root frame,
`Cactus::pop` removes that root: it returns the root's data (not absent),
the root's index no longer resolves afterwards, and the node count drops
to zero. -/
theorem c2_frame_permanence_counterexample :
    ((Cactus.push (Cactus.new (T := Nat)) 7).2.pop).1 = some 7 ∧
    ((Cactus.push (Cactus.new (T := Nat)) 7).2.pop).2.contains
      (Cactus.push (Cactus.new (T := Nat)) 7).1 = false ∧
    ((Cactus.push (Cactus.new (T := Nat)) 7).2.pop).2.len = 0 := by
  decide

/-- Claim C2, amended: `Cactus::pop` physically removes the frame at the
top of the active stack — the root frame included, when it is topmost —
and returns its data; the removed index no longer resolves, the occupied
node count drops by one, and the active stack loses its top entry.
(`pop` returns absent only when the active stack is empty or its top
index is already vacant.) -/
theorem c2_pop_removes_top_frame {T : Type} (c : Cactus T) (i : Nat) (nd : CNode T)
    (h1 : c.current = some i) (h2 : c.nodes.get? i = some nd) :
    (c.pop).1 = some nd.data ∧
    (c.pop).2.contains i = false ∧
    (c.pop).2.len = c.len - 1 ∧
    (c.pop).2.stack = c.stack.tail := by
  rw [Cactus.pop_of_current c i nd h1 h2]
  refine ⟨rfl, ?_, rfl, rfl⟩
  have := Slab.get?_tryRemove_self c.nodes i
  rw [Slab.tryRemove_of_get? c.nodes i nd h2] at this
  exact this

/-- Witness for `c2_pop_removes_top_frame` on a two-frame cactus with the
child frame on top of the stack. -/
theorem c2_pop_removes_top_frame_witness :
    (((Cactus.push (Cactus.new (T := Nat)) 5).2.push 6).2.current = some 1 ∧
     ((Cactus.push (Cactus.new (T := Nat)) 5).2.push 6).2.nodes.get? 1 =
       some ⟨6, some 0⟩) ∧
    ((((Cactus.push (Cactus.new (T := Nat)) 5).2.push 6).2.pop).1 = some 6 ∧
     ((((Cactus.push (Cactus.new (T := Nat)) 5).2.push 6).2.pop).2.contains 1 = false) ∧
     ((((Cactus.push (Cactus.new (T := Nat)) 5).2.push 6).2.pop).2.len =
       ((Cactus.push (Cactus.new (T := Nat)) 5).2.push 6).2.len - 1) ∧
     ((((Cactus.push (Cactus.new (T := Nat)) 5).2.push 6).2.pop).2.stack =
       ((Cactus.push (Cactus.new (T := Nat)) 5).2.push 6).2.stack.tail)) :=
  ⟨⟨by decide, by decide⟩,
   c2_pop_removes_top_frame _ 1 ⟨6, some 0⟩ (by decide) (by decide)⟩

/-! ## `unlox-tokens/src/lib.rs`

Tokens as consumed by the parser and the interpreter: the lexeme is a
byte range (`Range<usize>`) into the source text and the line number is
1-based.  `f64` literal payloads are modelled by `ℚ`. -/

inductive TokenKind where
| leftParen | rightParen | leftBrace | rightBrace
| comma | dot | minus | plus | semicolon | slash | star
| bang | bangEqual | equal | equalEqual
| greater | greaterEqual | less | lessEqual
| identifier
| string (s : String)
| stringUnterminated (s : String)
| number (n : ℚ)
| and | class_ | else_ | false_ | fun_ | for_ | if_ | nil
| or | print | return_ | super_ | this_ | true_ | var | while_
| unknown
| eof
deriving DecidableEq

structure Token where
kind : TokenKind
lexeme : Nat × Nat
line : Nat
deriving DecidableEq

/-! ## `unlox-ast/src/lib.rs`

The arena AST the parser emits: two append-only pools addressed by plain
indices, plus the list of root statements. -/

inductive Lit where
| string (s : String)
| number (n : ℚ)
| bool (b : Bool)
| nil
deriving DecidableEq

def Lit.is_truthy : Lit → Bool
| .nil => false
| .bool false => false
| _ => true

namespace UnloxAst

inductive Expr where
| Binary (op : Token) (l r : Nat)
| Grouping (e : Nat)
| Literal (l : Lit)
| Unary (op : Token) (e : Nat)
| Variable (tok : Token)
| Assign (var : Token) (value : Nat)
| Logical (op : Token) (l r : Nat)
| Call (callee : Nat) (paren : Token) (args : List Nat)
deriving DecidableEq

inductive Stmt where
| If (cond : Nat) (then_branch : Nat) (else_branch : Option Nat)
| While (cond : Nat) (body : Nat)
| Print (e : Nat)
| VarDecl (name : Token) (init : Option Nat)
| Expression (e : Nat)
| Block (stmts : List Nat)
| ParseErr
deriving DecidableEq

structure Ast where
stmts : List Stmt
exprs : List Expr
roots : List Nat
deriving DecidableEq

def Ast.new : Ast := ⟨[], [], []⟩

def Ast.push_stmt (a : Ast) (s : Stmt) : Nat × Ast :=
(a.stmts.length, { a with stmts := a.stmts ++ [s] })

def Ast.push_root_stmt (a : Ast) (s : Stmt) : Nat × Ast :=
let (idx, a) := a.push_stmt s
(idx, { a with roots := a.roots ++ [idx] })

def Ast.push_expr (a : Ast) (e : Expr) : Nat × Ast :=
(a.exprs.length, { a with exprs := a.exprs ++ [e] })

def Ast.stmt (a : Ast) (idx : Nat) : Option Stmt := a.stmts[idx]?

def Ast.expr (a : Ast) (idx : Nat) : Option Expr := a.exprs[idx]?

end UnloxAst

/-! ## `unlox-interpreter/src/env.rs`

The slot-reusing environment tree of the interpreter crate's `env`
module.  Its stated invariants (comments in the source) are
`nodes.len >= 1` and `nodes[0].enclosing.is_none()` — slot 0 holds the
global environment.  `HashMap<String, Lit>` is modelled by an
association list keyed by string equality. -/

namespace EnvRs

structure Env where
vars : List (String × Lit)
enclosing : Option Nat
deriving DecidableEq

def Env.global : Env := ⟨[], none⟩

def Env.nested (enclosing : Nat) : Env := ⟨[], some enclosing⟩

/-- Translation of `Env::define`: insert or overwrite a binding. -/
def Env.define (e : Env) (name : String) (value : Lit) : Env :=
{ e with vars :=
    if (e.vars.lookup name).isSome
    then e.vars.map (fun p => if p.1 = name then (name, value) else p)
    else e.vars ++ [(name, value)] }

structure EnvTree where
nodes : List (Option Env)
deriving DecidableEq

/-- Value of `EnvTree::default()`: a single occupied slot holding the
global environment. -/
def EnvTree.init : EnvTree := ⟨[some Env.global]⟩

/-- Translation of `EnvTree::create`.  The source computes
`self.nodes.iter_mut().skip(1).position(|slot| slot.is_none())`,
which is the position of the first vacant slot *relative to the iterator
that skipped slot 0*, and then writes `self.nodes[idx] = ...` with that
relative position used as an absolute index; otherwise it appends. -/
def EnvTree.create (t : EnvTree) (enclosing : Nat) : Nat × EnvTree :=
match (t.nodes.drop 1).findIdx? Option.isNone with
| some idx => (idx, ⟨t.nodes.set idx (some (Env.nested enclosing))⟩)
| none => (t.nodes.length, ⟨t.nodes ++ [some (Env.nested enclosing)]⟩)

end EnvRs

/-- Claim C9: `EnvTree::create` at the failing input.  Starting from the
state whose slots are `[Some(global), None]` — the global environment
plus one vacated slot — `create` is meant to reuse the vacant slot at
index 1, but `position` over the `skip(1)` iterator yields the relative
index 0, and the new nested environment is written into slot 0: the
global environment is overwritten and the documented invariant
`nodes[0].enclosing.is_none()` is violated, while slot 1 stays vacant. -/
theorem c9_create_clobbers_global :
    (EnvRs.EnvTree.create ⟨[some EnvRs.Env.global, none]⟩ 1).1 = 0 ∧
    (EnvRs.EnvTree.create ⟨[some EnvRs.Env.global, none]⟩ 1).2.nodes =
      [some (EnvRs.Env.nested 1), none] := by
  decide

/-! ## `unlox-parse/src/lib.rs`

The recursive-descent parser.  The source threads two `&mut` borrows
(the token stream and the AST) and prints recovery diagnostics with
`eprintln!`; the embedding threads a `PState` record holding the
remaining tokens, the AST arena, and the diagnostic lines.  `while`
loops in the source become `.._loop` helpers.  Because termination is
not syntactically evident in a recursive-descent parser, every function
takes a fuel argument and returns an explicit out-of-fuel marker (`oom`)
that the source has no counterpart for; `oom` never occurs in any run
evaluated below. -/

namespace Parse

structure PError where
token : Token
message : String
deriving DecidableEq

inductive PRes (α : Type) where
| ok (a : α)
| err (e : PError)
| oom
deriving DecidableEq

structure PState where
toks : List Token
ast : UnloxAst.Ast
errs : List String
deriving DecidableEq

/-- Token the exhausted stream keeps yielding (`TokenKind::Eof`). -/
def eofToken : Token := ⟨.eof, (0, 0), 0⟩

def peekT : List Token → Token
| [] => eofToken
| t :: _ => t

def nextT : List Token → Token × List Token
| [] => (eofToken, [])
| t :: ts => (t, ts)

def nextTok (st : PState) : Token × PState :=
let (t, ts) := nextT st.toks
(t, { st with toks := ts })

def advance1 (st : PState) : PState := (nextTok st).2

/-- Translation of `TokenStreamExt::match_next` with `matcher::eq`. -/
def match_next (st : PState) (kind : TokenKind) : Except Token Token × PState :=
let token := peekT st.toks
if token.kind = kind then
  (Except.ok (nextT st.toks).1, { st with toks := (nextT st.toks).2 })
else
  (Except.error token, st)

/-- Collect of `stmts.into_iter().map(|stmt| ast.push_stmt(stmt))`. -/
def pushStmts (ast : UnloxAst.Ast) : List UnloxAst.Stmt → List Nat × UnloxAst.Ast
| [] => ([], ast)
| s :: rest =>
  let (i, ast) := ast.push_stmt s
  let (is, ast) := pushStmts ast rest
  (i :: is, ast)

/-- Collect of `args.into_iter().map(|arg| ast.push_expr(arg))`. -/
def pushExprs (ast : UnloxAst.Ast) : List UnloxAst.Expr → List Nat × UnloxAst.Ast
| [] => ([], ast)
| e :: rest =>
  let (i, ast) := ast.push_expr e
  let (is, ast) := pushExprs ast rest
  (i :: is, ast)

def syncKind (k : TokenKind) : Bool :=
match k with
| .eof | .class_ | .fun_ | .var | .for_ | .if_ | .while_ | .print | .return_ => true
| _ => false

def sync_loop : Nat → Token → PState → PState
| 0, _, st => st
| fuel+1, current, st =>
  if current.kind = .semicolon then st
  else if syncKind (peekT st.toks).kind then st
  else
    let (current, st) := nextTok st
    sync_loop fuel current st

/-- Translation of `synchronize`: panic-mode recovery. -/
def synchronize (fuel : Nat) (st : PState) : PState :=
let (current, st) := nextTok st
sync_loop fuel current st

mutual

def declaration : Nat → PState → PRes UnloxAst.Stmt × PState
| 0, st => (.oom, st)
| fuel+1, st =>
  let token := peekT st.toks
  let (result, st) :=
    match token.kind with
    | .var => var_decl fuel (advance1 st)
    | _ => statement fuel st
  match result with
  | .ok s => (.ok s, st)
  | .oom => (.oom, st)
  | .err e =>
    let st := { st with errs := st.errs ++ [e.message] }
    (.ok .ParseErr, synchronize fuel st)
termination_by structural fuel => fuel

def statement : Nat → PState → PRes UnloxAst.Stmt × PState
| 0, st => (.oom, st)
| fuel+1, st =>
  match (peekT st.toks).kind with
  | .for_ => for_statement fuel (advance1 st)
  | .if_ => if_statement fuel (advance1 st)
  | .print => print_statement fuel (advance1 st)
  | .while_ => while_statement fuel (advance1 st)
  | .leftBrace =>
    match block fuel (advance1 st) with
    | (.ok stmts, st) =>
      let (idxs, ast) := pushStmts st.ast stmts
      (.ok (.Block idxs), { st with ast })
    | (.err e, st) => (.err e, st)
    | (.oom, st) => (.oom, st)
  | _ => expression_statement fuel st
termination_by structural fuel => fuel

def for_statement : Nat → PState → PRes UnloxAst.Stmt × PState
| 0, st => (.oom, st)
| fuel+1, st =>
  match match_next st .leftParen with
  | (.error t, st) => (.err ⟨t, "Expected '(' after 'for'."⟩, st)
  | (.ok _, st) =>
    let (initRes, st) :=
      match (peekT st.toks).kind with
      | .semicolon => ((.ok none : PRes (Option UnloxAst.Stmt)), advance1 st)
      | .var =>
        match var_decl fuel (advance1 st) with
        | (.ok s, st) => (.ok (some s), st)
        | (.err e, st) => (.err e, st)
        | (.oom, st) => (.oom, st)
      | _ =>
        match expression_statement fuel st with
        | (.ok s, st) => (.ok (some s), st)
        | (.err e, st) => (.err e, st)
        | (.oom, st) => (.oom, st)
    match initRes with
    | .err e => (.err e, st)
    | .oom => (.oom, st)
    | .ok init =>
      let (condRes, st) :=
        if (peekT st.toks).kind ≠ .semicolon then
          match expression fuel st with
          | (.ok e, st) => ((.ok (some e) : PRes (Option UnloxAst.Expr)), st)
          | (.err e, st) => (.err e, st)
          | (.oom, st) => (.oom, st)
        else ((.ok none : PRes (Option UnloxAst.Expr)), st)
      match condRes with
      | .err e => (.err e, st)
      | .oom => (.oom, st)
      | .ok cond =>
        match match_next st .semicolon with
        | (.error t, st) => (.err ⟨t, "Expected ';' after loop condition."⟩, st)
        | (.ok _, st) =>
          let (incRes, st) :=
            if (peekT st.toks).kind ≠ .rightParen then
              match expression fuel st with
              | (.ok e, st) => ((.ok (some e) : PRes (Option UnloxAst.Expr)), st)
              | (.err e, st) => (.err e, st)
              | (.oom, st) => (.oom, st)
            else ((.ok none : PRes (Option UnloxAst.Expr)), st)
          match incRes with
          | .err e => (.err e, st)
          | .oom => (.oom, st)
          | .ok inc =>
            match match_next st .rightParen with
            | (.error t, st) => (.err ⟨t, "Expected ')' after for clauses."⟩, st)
            | (.ok _, st) =>
              match statement fuel st with
              | (.err e, st) => (.err e, st)
              | (.oom, st) => (.oom, st)
              | (.ok body, st) =>
                let (body, ast) :=
                  match inc with
                  | some inc =>
                    let (incIdx, ast) := st.ast.push_expr inc
                    let (bodyIdx, ast) := ast.push_stmt body
                    let (incStmtIdx, ast) := ast.push_stmt (.Expression incIdx)
                    (UnloxAst.Stmt.Block [bodyIdx, incStmtIdx], ast)
                  | none => (body, st.ast)
                let cond := cond.getD (UnloxAst.Expr.Literal (.bool true))
                let (condIdx, ast) := ast.push_expr cond
                let (whileBodyIdx, ast) := ast.push_stmt body
                let while_stmt := UnloxAst.Stmt.While condIdx whileBodyIdx
                match init with
                | some init =>
                  let (initIdx, ast) := ast.push_stmt init
                  let (whileIdx, ast) := ast.push_stmt while_stmt
                  (.ok (.Block [initIdx, whileIdx]), { st with ast })
                | none => (.ok while_stmt, { st with ast })
termination_by structural fuel => fuel

def if_statement : Nat → PState → PRes UnloxAst.Stmt × PState
| 0, st => (.oom, st)
| fuel+1, st =>
  match match_next st .leftParen with
  | (.error t, st) => (.err ⟨t, "Expected '(' after 'if'."⟩, st)
  | (.ok _, st) =>
    match expression fuel st with
    | (.err e, st) => (.err e, st)
    | (.oom, st) => (.oom, st)
    | (.ok cond, st) =>
      match match_next st .rightParen with
      | (.error t, st) => (.err ⟨t, "Expected ')' after if condition."⟩, st)
      | (.ok _, st) =>
        match statement fuel st with
        | (.err e, st) => (.err e, st)
        | (.oom, st) => (.oom, st)
        | (.ok then_branch, st) =>
          match match_next st .else_ with
          | (.ok _, st) =>
            match statement fuel st with
            | (.err e, st) => (.err e, st)
            | (.oom, st) => (.oom, st)
            | (.ok else_branch, st) =>
              let (ci, ast) := st.ast.push_expr cond
              let (ti, ast) := ast.push_stmt then_branch
              let (ei, ast) := ast.push_stmt else_branch
              (.ok (.If ci ti (some ei)), { st with ast })
          | (.error _, st) =>
            let (ci, ast) := st.ast.push_expr cond
            let (ti, ast) := ast.push_stmt then_branch
            (.ok (.If ci ti none), { st with ast })
termination_by structural fuel => fuel

def while_statement : Nat → PState → PRes UnloxAst.Stmt × PState
| 0, st => (.oom, st)
| fuel+1, st =>
  match match_next st .leftParen with
  | (.error t, st) => (.err ⟨t, "Expected '(' after 'while'."⟩, st)
  | (.ok _, st) =>
    match expression fuel st with
    | (.err e, st) => (.err e, st)
    | (.oom, st) => (.oom, st)
    | (.ok cond, st) =>
      match match_next st .rightParen with
      | (.error t, st) => (.err ⟨t, "Expected ')' after condition."⟩, st)
      | (.ok _, st) =>
        match statement fuel st with
        | (.err e, st) => (.err e, st)
        | (.oom, st) => (.oom, st)
        | (.ok body, st) =>
          let (ci, ast) := st.ast.push_expr cond
          let (bi, ast) := ast.push_stmt body
          (.ok (.While ci bi), { st with ast })
termination_by structural fuel => fuel

def print_statement : Nat → PState → PRes UnloxAst.Stmt × PState
| 0, st => (.oom, st)
| fuel+1, st =>
  match expression fuel st with
  | (.err e, st) => (.err e, st)
  | (.oom, st) => (.oom, st)
  | (.ok expr, st) =>
    match match_next st .semicolon with
    | (.error t, st) => (.err ⟨t, "Expected ';' after value."⟩, st)
    | (.ok _, st) =>
      let (ei, ast) := st.ast.push_expr expr
      (.ok (.Print ei), { st with ast })

def expression_statement : Nat → PState → PRes UnloxAst.Stmt × PState
| 0, st => (.oom, st)
| fuel+1, st =>
  match expression fuel st with
  | (.err e, st) => (.err e, st)
  | (.oom, st) => (.oom, st)
  | (.ok expr, st) =>
    match match_next st .semicolon with
    | (.error t, st) => (.err ⟨t, "Expected ';' after expression."⟩, st)
    | (.ok _, st) =>
      let (ei, ast) := st.ast.push_expr expr
      (.ok (.Expression ei), { st with ast })

def block : Nat → PState → PRes (List UnloxAst.Stmt) × PState
| 0, st => (.oom, st)
| fuel+1, st => block_loop fuel [] st
termination_by structural fuel => fuel

def block_loop : Nat → List UnloxAst.Stmt → PState → PRes (List UnloxAst.Stmt) × PState
| 0, _, st => (.oom, st)
| fuel+1, acc, st =>
  if (peekT st.toks).kind ≠ .rightBrace ∧ (peekT st.toks).kind ≠ .eof then
    match declaration fuel st with
    | (.ok s, st) => block_loop fuel (acc ++ [s]) st
    | (.err e, st) => (.err e, st)
    | (.oom, st) => (.oom, st)
  else
    match match_next st .rightBrace with
    | (.error t, st) => (.err ⟨t, "Expect '\x7d' after block."⟩, st)
    | (.ok _, st) => (.ok acc, st)
termination_by structural fuel => fuel

def var_decl : Nat → PState → PRes UnloxAst.Stmt × PState
| 0, st => (.oom, st)
| fuel+1, st =>
  match match_next st .identifier with
  | (.error t, st) => (.err ⟨t, "Expected variable name."⟩, st)
  | (.ok name, st) =>
    let (initRes, st) :=
      if (peekT st.toks).kind = .equal then
        match expression fuel (advance1 st) with
        | (.ok e, st) => ((.ok (some e) : PRes (Option UnloxAst.Expr)), st)
        | (.err e, st) => (.err e, st)
        | (.oom, st) => (.oom, st)
      else ((.ok none : PRes (Option UnloxAst.Expr)), st)
    match initRes with
    | .err e => (.err e, st)
    | .oom => (.oom, st)
    | .ok init =>
      match match_next st .semicolon with
      | (.error t, st) => (.err ⟨t, "Expected ';' after variable declaration."⟩, st)
      | (.ok _, st) =>
        match init with
        | some init =>
          let (ei, ast) := st.ast.push_expr init
          (.ok (.VarDecl name (some ei)), { st with ast })
        | none => (.ok (.VarDecl name none), st)

def expression : Nat → PState → PRes UnloxAst.Expr × PState
| 0, st => (.oom, st)
| fuel+1, st => assignment fuel st
termination_by structural fuel => fuel

def assignment : Nat → PState → PRes UnloxAst.Expr × PState
| 0, st => (.oom, st)
| fuel+1, st =>
  match or fuel st with
  | (.err e, st) => (.err e, st)
  | (.oom, st) => (.oom, st)
  | (.ok expr, st) =>
    match match_next st .equal with
    | (.ok equals, st) =>
      match assignment fuel st with
      | (.err e, st) => (.err e, st)
      | (.oom, st) => (.oom, st)
      | (.ok value, st) =>
        match expr with
        | .Variable name =>
          let (vi, ast) := st.ast.push_expr value
          (.ok (.Assign name vi), { st with ast })
        | _ => (.err ⟨equals, "Invalid assignment target."⟩, st)
    | (.error _, st) => (.ok expr, st)
termination_by structural fuel => fuel

def or : Nat → PState → PRes UnloxAst.Expr × PState
| 0, st => (.oom, st)
| fuel+1, st =>
  match and fuel st with
  | (.err e, st) => (.err e, st)
  | (.oom, st) => (.oom, st)
  | (.ok expr, st) => or_loop fuel expr st
termination_by structural fuel => fuel

def or_loop : Nat → UnloxAst.Expr → PState → PRes UnloxAst.Expr × PState
| 0, _, st => (.oom, st)
| fuel+1, expr, st =>
  match (peekT st.toks).kind with
  | .or =>
    let (operator, st) := nextTok st
    match and fuel st with
    | (.err e, st) => (.err e, st)
    | (.oom, st) => (.oom, st)
    | (.ok right, st) =>
      let (li, ast) := st.ast.push_expr expr
      let (ri, ast) := ast.push_expr right
      or_loop fuel (.Logical operator li ri) { st with ast }
  | _ => (.ok expr, st)
termination_by structural fuel => fuel

def and : Nat → PState → PRes UnloxAst.Expr × PState
| 0, st => (.oom, st)
| fuel+1, st =>
  match equality fuel st with
  | (.err e, st) => (.err e, st)
  | (.oom, st) => (.oom, st)
  | (.ok expr, st) => and_loop fuel expr st
termination_by structural fuel => fuel

def and_loop : Nat → UnloxAst.Expr → PState → PRes UnloxAst.Expr × PState
| 0, _, st => (.oom, st)
| fuel+1, expr, st =>
  match (peekT st.toks).kind with
  | .and =>
    let (operator, st) := nextTok st
    match equality fuel st with
    | (.err e, st) => (.err e, st)
    | (.oom, st) => (.oom, st)
    | (.ok right, st) =>
      let (li, ast) := st.ast.push_expr expr
      let (ri, ast) := ast.push_expr right
      and_loop fuel (.Logical operator li ri) { st with ast }
  | _ => (.ok expr, st)
termination_by structural fuel => fuel

def equality : Nat → PState → PRes UnloxAst.Expr × PState
| 0, st => (.oom, st)
| fuel+1, st =>
  match comparison fuel st with
  | (.err e, st) => (.err e, st)
  | (.oom, st) => (.oom, st)
  | (.ok expr, st) => equality_loop fuel expr st
termination_by structural fuel => fuel

def equality_loop : Nat → UnloxAst.Expr → PState → PRes UnloxAst.Expr × PState
| 0, _, st => (.oom, st)
| fuel+1, expr, st =>
  match (peekT st.toks).kind with
  | .bangEqual | .equalEqual =>
    let (token, st) := nextTok st
    match comparison fuel st with
    | (.err e, st) => (.err e, st)
    | (.oom, st) => (.oom, st)
    | (.ok right, st) =>
      let (li, ast) := st.ast.push_expr expr
      let (ri, ast) := ast.push_expr right
      equality_loop fuel (.Binary token li ri) { st with ast }
  | _ => (.ok expr, st)
termination_by structural fuel => fuel

def comparison : Nat → PState → PRes UnloxAst.Expr × PState
| 0, st => (.oom, st)
| fuel+1, st =>
  match term fuel st with
  | (.err e, st) => (.err e, st)
  | (.oom, st) => (.oom, st)
  | (.ok expr, st) => comparison_loop fuel expr st
termination_by structural fuel => fuel

def comparison_loop : Nat → UnloxAst.Expr → PState → PRes UnloxAst.Expr × PState
| 0, _, st => (.oom, st)
| fuel+1, expr, st =>
  match (peekT st.toks).kind with
  | .less | .lessEqual | .greater | .greaterEqual =>
    let (token, st) := nextTok st
    match term fuel st with
    | (.err e, st) => (.err e, st)
    | (.oom, st) => (.oom, st)
    | (.ok right, st) =>
      let (li, ast) := st.ast.push_expr expr
      let (ri, ast) := ast.push_expr right
      comparison_loop fuel (.Binary token li ri) { st with ast }
  | _ => (.ok expr, st)
termination_by structural fuel => fuel

def term : Nat → PState → PRes UnloxAst.Expr × PState
| 0, st => (.oom, st)
| fuel+1, st =>
  match factor fuel st with
  | (.err e, st) => (.err e, st)
  | (.oom, st) => (.oom, st)
  | (.ok expr, st) => term_loop fuel expr st
termination_by structural fuel => fuel

def term_loop : Nat → UnloxAst.Expr → PState → PRes UnloxAst.Expr × PState
| 0, _, st => (.oom, st)
| fuel+1, expr, st =>
  match (peekT st.toks).kind with
  | .minus | .plus =>
    let (token, st) := nextTok st
    match factor fuel st with
    | (.err e, st) => (.err e, st)
    | (.oom, st) => (.oom, st)
    | (.ok right, st) =>
      let (li, ast) := st.ast.push_expr expr
      let (ri, ast) := ast.push_expr right
      term_loop fuel (.Binary token li ri) { st with ast }
  | _ => (.ok expr, st)
termination_by structural fuel => fuel

def factor : Nat → PState → PRes UnloxAst.Expr × PState
| 0, st => (.oom, st)
| fuel+1, st =>
  match unary fuel st with
  | (.err e, st) => (.err e, st)
  | (.oom, st) => (.oom, st)
  | (.ok expr, st) => factor_loop fuel expr st
termination_by structural fuel => fuel

def factor_loop : Nat → UnloxAst.Expr → PState → PRes UnloxAst.Expr × PState
| 0, _, st => (.oom, st)
| fuel+1, expr, st =>
  match (peekT st.toks).kind with
  | .slash | .star =>
    let (token, st) := nextTok st
    match unary fuel st with
    | (.err e, st) => (.err e, st)
    | (.oom, st) => (.oom, st)
    | (.ok right, st) =>
      let (li, ast) := st.ast.push_expr expr
      let (ri, ast) := ast.push_expr right
      factor_loop fuel (.Binary token li ri) { st with ast }
  | _ => (.ok expr, st)
termination_by structural fuel => fuel

def unary : Nat → PState → PRes UnloxAst.Expr × PState
| 0, st => (.oom, st)
| fuel+1, st =>
  match (peekT st.toks).kind with
  | .bang | .minus =>
    let (token, st) := nextTok st
    match unary fuel st with
    | (.err e, st) => (.err e, st)
    | (.oom, st) => (.oom, st)
    | (.ok expr, st) =>
      let (ei, ast) := st.ast.push_expr expr
      (.ok (.Unary token ei), { st with ast })
  | _ => call fuel st
termination_by structural fuel => fuel

def call : Nat → PState → PRes UnloxAst.Expr × PState
| 0, st => (.oom, st)
| fuel+1, st =>
  match primary fuel st with
  | (.err e, st) => (.err e, st)
  | (.oom, st) => (.oom, st)
  | (.ok expr, st) => call_loop fuel expr st
termination_by structural fuel => fuel

def call_loop : Nat → UnloxAst.Expr → PState → PRes UnloxAst.Expr × PState
| 0, _, st => (.oom, st)
| fuel+1, expr, st =>
  match (peekT st.toks).kind with
  | .leftParen =>
    let st := advance1 st
    let (argsRes, st) :=
      if (peekT st.toks).kind ≠ .rightParen then arg_list fuel [] st
      else ((.ok [] : PRes (List UnloxAst.Expr)), st)
    match argsRes with
    | .err e => (.err e, st)
    | .oom => (.oom, st)
    | .ok args =>
      match match_next st .rightParen with
      | (.error t, st) => (.err ⟨t, "Expect ')' after arguments."⟩, st)
      | (.ok paren, st) =>
        let (ci, ast) := st.ast.push_expr expr
        let (ais, ast) := pushExprs ast args
        call_loop fuel (.Call ci paren ais) { st with ast }
  | _ => (.ok expr, st)
termination_by structural fuel => fuel

def arg_list : Nat → List UnloxAst.Expr → PState → PRes (List UnloxAst.Expr) × PState
| 0, _, st => (.oom, st)
| fuel+1, acc, st =>
  if acc.length ≥ 255 then
    let (t, st) := nextTok st
    (.err ⟨t, "Can't have more than 255 arguments"⟩, st)
  else
    match expression fuel st with
    | (.err e, st) => (.err e, st)
    | (.oom, st) => (.oom, st)
    | (.ok arg, st) =>
      let acc := acc ++ [arg]
      match match_next st .comma with
      | (.ok _, st) => arg_list fuel acc st
      | (.error _, st) => (.ok acc, st)
termination_by structural fuel => fuel

def primary : Nat → PState → PRes UnloxAst.Expr × PState
| 0, st => (.oom, st)
| fuel+1, st =>
  let token := peekT st.toks
  match token.kind with
  | .false_ => (.ok (.Literal (.bool false)), advance1 st)
  | .true_ => (.ok (.Literal (.bool true)), advance1 st)
  | .nil => (.ok (.Literal .nil), advance1 st)
  | .number n => (.ok (.Literal (.number n)), advance1 st)
  | .string value => (.ok (.Literal (.string value)), advance1 st)
  | .stringUnterminated _ => (.err ⟨token, "Unterminated string."⟩, st)
  | .leftParen =>
    match expression fuel (advance1 st) with
    | (.err e, st) => (.err e, st)
    | (.oom, st) => (.oom, st)
    | (.ok expr, st) =>
      let token := peekT st.toks
      if token.kind ≠ .rightParen then
        (.err ⟨token, "Expected \x22)\x22 after expression."⟩, st)
      else
        let (ei, ast) := st.ast.push_expr expr
        (.ok (.Grouping ei), advance1 { st with ast })
  | .identifier => (.ok (.Variable token), advance1 st)
  | .eof => (.err ⟨token, "Unexpected end of file."⟩, st)
  | _ => (.err ⟨token, "Expected expression."⟩, st)
termination_by structural fuel => fuel

end

/-- Translation of `parse`: loop `declaration` until `Eof`, appending each
result as a root statement. -/
def parse : Nat → PState → PRes UnloxAst.Ast × PState
| 0, st => (.oom, st)
| fuel+1, st =>
  if (peekT st.toks).kind = .eof then (.ok st.ast, st)
  else
    match declaration fuel st with
    | (.ok s, st) =>
      let (_, ast) := st.ast.push_root_stmt s
      parse fuel { st with ast }
    | (.err e, st) => (.err e, st)
    | (.oom, st) => (.oom, st)

end Parse

/-! ### Arena append lemmas -/

theorem UnloxAst.Ast.stmt_push_stmt_self (a : UnloxAst.Ast) (s : UnloxAst.Stmt) :
    (a.push_stmt s).2.stmt (a.push_stmt s).1 = some s := by
  simp [UnloxAst.Ast.push_stmt, UnloxAst.Ast.stmt]

theorem UnloxAst.Ast.stmt_push_stmt_mono (a : UnloxAst.Ast) (s : UnloxAst.Stmt)
    (i : Nat) (x : UnloxAst.Stmt) (h : a.stmt i = some x) :
    (a.push_stmt s).2.stmt i = some x := by
  have hi : i < a.stmts.length := (List.getElem?_eq_some.mp h).1
  simpa [UnloxAst.Ast.push_stmt, UnloxAst.Ast.stmt, List.getElem?_append, hi] using h

theorem UnloxAst.Ast.expr_push_stmt (a : UnloxAst.Ast) (s : UnloxAst.Stmt) (i : Nat) :
    (a.push_stmt s).2.expr i = a.expr i := rfl

theorem UnloxAst.Ast.stmt_push_expr (a : UnloxAst.Ast) (e : UnloxAst.Expr) (i : Nat) :
    (a.push_expr e).2.stmt i = a.stmt i := rfl

theorem UnloxAst.Ast.expr_push_expr_self (a : UnloxAst.Ast) (e : UnloxAst.Expr) :
    (a.push_expr e).2.expr (a.push_expr e).1 = some e := by
  simp [UnloxAst.Ast.push_expr, UnloxAst.Ast.expr]

theorem UnloxAst.Ast.expr_push_expr_mono (a : UnloxAst.Ast) (e : UnloxAst.Expr)
    (i : Nat) (x : UnloxAst.Expr) (h : a.expr i = some x) :
    (a.push_expr e).2.expr i = some x := by
  have hi : i < a.exprs.length := (List.getElem?_eq_some.mp h).1
  simpa [UnloxAst.Ast.push_expr, UnloxAst.Ast.expr, List.getElem?_append, hi] using h

/-! ### Claim C4: the for-loop desugaring -/

/-- Shape of the inner statement of the for-rewrite, written from the
spec's words (§4.3): `Block{ body, Expression(inc) }` when an increment
clause is present, else `body` itself; read off the arena at `bodyIdx`. -/
def specForInnerShape (ast : UnloxAst.Ast) (bodyIdx : Nat)
    (inc : Option UnloxAst.Expr) (body : UnloxAst.Stmt) : Prop :=
match inc with
| none => ast.stmt bodyIdx = some body
| some inc =>
  ∃ bi ii ei,
    ast.stmt bodyIdx = some (.Block [bi, ii]) ∧
    ast.stmt bi = some body ∧
    ast.stmt ii = some (.Expression ei) ∧
    ast.expr ei = some inc

/-- Shape of the whole for-rewrite, written from the spec's words (§4.3):
`Block{ init, While{ cond ?? true, inner } }`, the outer `Block` omitted
when there is no initializer, the inner `Block` omitted when there is no
increment, and an absent condition replaced by the literal `true`. -/
def specForShape (ast : UnloxAst.Ast) (stmt : UnloxAst.Stmt)
    (init : Option UnloxAst.Stmt) (cond : Option UnloxAst.Expr)
    (inc : Option UnloxAst.Expr) (body : UnloxAst.Stmt) : Prop :=
∃ condIdx bodyIdx,
  ast.expr condIdx = some (cond.getD (.Literal (.bool true))) ∧
  specForInnerShape ast bodyIdx inc body ∧
  match init with
  | none => stmt = .While condIdx bodyIdx
  | some i =>
    ∃ initIdx whileIdx,
      stmt = .Block [initIdx, whileIdx] ∧
      ast.stmt initIdx = some i ∧
      ast.stmt whileIdx = some (.While condIdx bodyIdx)

theorem getElem?_of_append_eq {α : Type} (L P rest : List α) (x : α)
    (hL : L = P ++ (x :: rest)) : L[P.length]? = some x := by
  subst hL
  rw [List.getElem?_append_right (le_refl _)]
  simp

theorem c4_shape_ss (S : List UnloxAst.Stmt) (E : List UnloxAst.Expr) (R : List Nat)
    (b i : UnloxAst.Stmt) (n : UnloxAst.Expr) (c : Option UnloxAst.Expr) :
    specForShape
      ⟨S ++ [b] ++ [UnloxAst.Stmt.Expression E.length] ++ [UnloxAst.Stmt.Block [S.length, (S ++ [b]).length]] ++ [i] ++
          [UnloxAst.Stmt.While (E ++ [n]).length (S ++ [b] ++ [UnloxAst.Stmt.Expression E.length]).length],
        E ++ [n] ++ [c.getD (UnloxAst.Expr.Literal (Lit.bool true))], R⟩
      (UnloxAst.Stmt.Block
        [(S ++ [b] ++ [UnloxAst.Stmt.Expression E.length] ++ [UnloxAst.Stmt.Block [S.length, (S ++ [b]).length]]).length,
         (S ++ [b] ++ [UnloxAst.Stmt.Expression E.length] ++ [UnloxAst.Stmt.Block [S.length, (S ++ [b]).length]] ++ [i]).length])
      (some i) c (some n) b := by
  unfold specForShape specForInnerShape
  refine ⟨(E ++ [n]).length, (S ++ [b] ++ [UnloxAst.Stmt.Expression E.length]).length, ?_, ?_, ?_⟩
  · exact getElem?_of_append_eq _ (E ++ [n]) [] _ (by simp)
  · refine ⟨S.length, (S ++ [b]).length, E.length, ?_, ?_, ?_, ?_⟩
    · exact getElem?_of_append_eq _ (S ++ [b] ++ [UnloxAst.Stmt.Expression E.length])
        [i, UnloxAst.Stmt.While (E ++ [n]).length (S ++ [b] ++ [UnloxAst.Stmt.Expression E.length]).length] _ (by simp)
    · exact getElem?_of_append_eq _ S
        [UnloxAst.Stmt.Expression E.length, UnloxAst.Stmt.Block [S.length, (S ++ [b]).length], i,
          UnloxAst.Stmt.While (E ++ [n]).length (S ++ [b] ++ [UnloxAst.Stmt.Expression E.length]).length] _ (by simp)
    · exact getElem?_of_append_eq _ (S ++ [b])
        [UnloxAst.Stmt.Block [S.length, (S ++ [b]).length], i,
          UnloxAst.Stmt.While (E ++ [n]).length (S ++ [b] ++ [UnloxAst.Stmt.Expression E.length]).length] _ (by simp)
    · exact getElem?_of_append_eq _ E [c.getD (UnloxAst.Expr.Literal (Lit.bool true))] _ (by simp)
  · refine ⟨(S ++ [b] ++ [UnloxAst.Stmt.Expression E.length] ++ [UnloxAst.Stmt.Block [S.length, (S ++ [b]).length]]).length,
      (S ++ [b] ++ [UnloxAst.Stmt.Expression E.length] ++ [UnloxAst.Stmt.Block [S.length, (S ++ [b]).length]] ++ [i]).length,
      rfl, ?_, ?_⟩
    · exact getElem?_of_append_eq _
        (S ++ [b] ++ [UnloxAst.Stmt.Expression E.length] ++ [UnloxAst.Stmt.Block [S.length, (S ++ [b]).length]])
        [UnloxAst.Stmt.While (E ++ [n]).length (S ++ [b] ++ [UnloxAst.Stmt.Expression E.length]).length] _ (by simp)
    · exact getElem?_of_append_eq _
        (S ++ [b] ++ [UnloxAst.Stmt.Expression E.length] ++ [UnloxAst.Stmt.Block [S.length, (S ++ [b]).length]] ++ [i])
        [] _ (by simp)

theorem c4_shape_sn (S : List UnloxAst.Stmt) (E : List UnloxAst.Expr) (R : List Nat)
    (b i : UnloxAst.Stmt) (c : Option UnloxAst.Expr) :
    specForShape
      ⟨S ++ [b] ++ [i] ++ [UnloxAst.Stmt.While E.length S.length],
        E ++ [c.getD (UnloxAst.Expr.Literal (Lit.bool true))], R⟩
      (UnloxAst.Stmt.Block [(S ++ [b]).length, (S ++ [b] ++ [i]).length])
      (some i) c none b := by
  unfold specForShape specForInnerShape
  refine ⟨E.length, S.length, ?_, ?_, ?_⟩
  · exact getElem?_of_append_eq _ E [] _ (by simp)
  · exact getElem?_of_append_eq _ S [i, UnloxAst.Stmt.While E.length S.length] _ (by simp)
  · refine ⟨(S ++ [b]).length, (S ++ [b] ++ [i]).length, rfl, ?_, ?_⟩
    · exact getElem?_of_append_eq _ (S ++ [b]) [UnloxAst.Stmt.While E.length S.length] _ (by simp)
    · exact getElem?_of_append_eq _ (S ++ [b] ++ [i]) [] _ (by simp)

theorem c4_shape_ns (S : List UnloxAst.Stmt) (E : List UnloxAst.Expr) (R : List Nat)
    (b : UnloxAst.Stmt) (n : UnloxAst.Expr) (c : Option UnloxAst.Expr) :
    specForShape
      ⟨S ++ [b] ++ [UnloxAst.Stmt.Expression E.length] ++ [UnloxAst.Stmt.Block [S.length, (S ++ [b]).length]],
        E ++ [n] ++ [c.getD (UnloxAst.Expr.Literal (Lit.bool true))], R⟩
      (UnloxAst.Stmt.While (E ++ [n]).length (S ++ [b] ++ [UnloxAst.Stmt.Expression E.length]).length)
      none c (some n) b := by
  unfold specForShape specForInnerShape
  refine ⟨(E ++ [n]).length, (S ++ [b] ++ [UnloxAst.Stmt.Expression E.length]).length, ?_, ?_, rfl⟩
  · exact getElem?_of_append_eq _ (E ++ [n]) [] _ (by simp)
  · refine ⟨S.length, (S ++ [b]).length, E.length, ?_, ?_, ?_, ?_⟩
    · exact getElem?_of_append_eq _ (S ++ [b] ++ [UnloxAst.Stmt.Expression E.length]) [] _ (by simp)
    · exact getElem?_of_append_eq _ S
        [UnloxAst.Stmt.Expression E.length, UnloxAst.Stmt.Block [S.length, (S ++ [b]).length]] _ (by simp)
    · exact getElem?_of_append_eq _ (S ++ [b])
        [UnloxAst.Stmt.Block [S.length, (S ++ [b]).length]] _ (by simp)
    · exact getElem?_of_append_eq _ E [c.getD (UnloxAst.Expr.Literal (Lit.bool true))] _ (by simp)

theorem c4_shape_nn (S : List UnloxAst.Stmt) (E : List UnloxAst.Expr) (R : List Nat)
    (b : UnloxAst.Stmt) (c : Option UnloxAst.Expr) :
    specForShape
      ⟨S ++ [b],
        E ++ [c.getD (UnloxAst.Expr.Literal (Lit.bool true))], R⟩
      (UnloxAst.Stmt.While E.length S.length)
      none c none b := by
  unfold specForShape specForInnerShape
  refine ⟨E.length, S.length, ?_, ?_, rfl⟩
  · exact getElem?_of_append_eq _ E [] _ (by simp)
  · exact getElem?_of_append_eq _ S [] _ (by simp)

set_option maxHeartbeats 2000000 in
/-- Claim C4: whenever `for_statement` succeeds, the statement it returns
is exactly the `Block / While / Block` rewrite of the spec, over the
components it parsed: there are an optional initializer, an optional
condition, an optional increment and a body statement such that the
result has the rewrite's shape in the resulting arena (outer `Block`
omitted without an initializer, inner `Block` omitted without an
increment, literal `true` for an absent condition).  The parser emits no
dedicated for-node at all, so executing the parsed for-loop *is*
executing this rewrite. -/
theorem c4_for_statement_desugars (fuel : Nat) (st st' : Parse.PState)
    (stmt : UnloxAst.Stmt)
    (h : Parse.for_statement (fuel+1) st = (.ok stmt, st')) :
    ∃ init cond inc body, specForShape st'.ast stmt init cond inc body := by
  rw [Parse.for_statement] at h
  simp only [UnloxAst.Ast.push_expr, UnloxAst.Ast.push_stmt] at h
  repeat' split at h
  all_goals first
  | (exfalso; simp at h; done)
  | (simp only [Prod.mk.injEq, Parse.PRes.ok.injEq] at h
     obtain ⟨hstmt, hast⟩ := h
     subst hstmt
     subst hast)
  all_goals first
  | exact ⟨_, _, _, _, c4_shape_ss _ _ _ _ _ _ _⟩
  | exact ⟨_, _, _, _, c4_shape_sn _ _ _ _ _ _⟩
  | exact ⟨_, _, _, _, c4_shape_ns _ _ _ _ _ _⟩
  | exact ⟨_, _, _, _, c4_shape_nn _ _ _ _ _⟩

/-- Witness for `c4_for_statement_desugars`: the token tail of
`for(;;) print 1;` parses to `While` over the literal-`true` condition,
and the desugared shape holds for it. -/
theorem c4_for_statement_desugars_witness :
    Parse.for_statement 20
      ⟨[⟨.leftParen, (0, 0), 1⟩, ⟨.semicolon, (0, 0), 1⟩, ⟨.semicolon, (0, 0), 1⟩,
        ⟨.rightParen, (0, 0), 1⟩, ⟨.print, (0, 0), 1⟩, ⟨.number 1, (0, 0), 1⟩,
        ⟨.semicolon, (0, 0), 1⟩, ⟨.eof, (0, 0), 1⟩],
       UnloxAst.Ast.new, []⟩ =
      (.ok (.While 1 0),
       ⟨[⟨.eof, (0, 0), 1⟩],
        ⟨[.Print 0], [.Literal (.number 1), .Literal (.bool true)], []⟩, []⟩) ∧
    (∃ init cond inc body,
      specForShape ⟨[.Print 0], [.Literal (.number 1), .Literal (.bool true)], []⟩
        (.While 1 0) init cond inc body) :=
  ⟨by decide,
   c4_for_statement_desugars 19
     ⟨[⟨.leftParen, (0, 0), 1⟩, ⟨.semicolon, (0, 0), 1⟩, ⟨.semicolon, (0, 0), 1⟩,
       ⟨.rightParen, (0, 0), 1⟩, ⟨.print, (0, 0), 1⟩, ⟨.number 1, (0, 0), 1⟩,
       ⟨.semicolon, (0, 0), 1⟩, ⟨.eof, (0, 0), 1⟩],
      UnloxAst.Ast.new, []⟩
     ⟨[⟨.eof, (0, 0), 1⟩],
      ⟨[.Print 0], [.Literal (.number 1), .Literal (.bool true)], []⟩, []⟩
     (.While 1 0) (by decide)⟩

/-! ## `unlox-lexer/src/lib.rs` and its `Selection`

The lexer's `Selection` keeps *byte* offsets (`start`, `end`) into the
source string while `advance` moves `end` by exactly one per character
(`self.end += 1`).  Rust string slicing `&s[i..]`/`&s[a..b]` panics when
an offset is not a character boundary, which the embedding makes
explicit: `Selection` operations return `LRes`, whose `panicked`
constructor marks a Rust panic (and `oom` marks fuel exhaustion of the
skip loop, which no evaluated run reaches).  The source's `end` field is
a Lean keyword and is named `stop` here. -/

namespace Lexer

inductive LRes (α : Type) where
| ok (a : α)
| panicked
| oom
deriving DecidableEq

inductive TokenKind where
| leftParen | rightParen | leftBrace | rightBrace
| comma | dot | minus | plus | semicolon | slash | star
| bang | bangEqual | equal | equalEqual
| greater | greaterEqual | less | lessEqual
| identifier
| string (value : String) (is_terminated : Bool)
| number (n : ℚ)
| and | class_ | else_ | false_ | fun_ | for_ | if_ | nil
| or | print | return_ | super_ | this_ | true_ | var | while_
| unknown
| eof
deriving DecidableEq

structure Token where
kind : TokenKind
lexeme : List Char
line : Nat
deriving DecidableEq

/-- Byte length of a character list under UTF-8. -/
def byteLen (l : List Char) : Nat := (l.map Char.utf8Size).sum

/-- Suffix of `l` from byte offset `i`: `some` when `i` is a character
boundary at or before the end (Rust `&s[i..]` succeeds), `none` when `i`
is inside a character or past the end (Rust `&s[i..]` panics). -/
def suffixAt : List Char → Nat → Option (List Char)
| l, 0 => some l
| [], _+1 => none
| c :: cs, i+1 =>
  if c.utf8Size ≤ i + 1 then suffixAt cs (i + 1 - c.utf8Size) else none

/-- First `i` bytes of `l` as whole characters, when `i` is a boundary. -/
def prefixAt : List Char → Nat → Option (List Char)
| _, 0 => some []
| [], _+1 => none
| c :: cs, i+1 =>
  if c.utf8Size ≤ i + 1 then (prefixAt cs (i + 1 - c.utf8Size)).map (c :: ·) else none

/-- Rust `&s[a..b]`, `none` standing for a slicing panic. -/
def sliceBytes (l : List Char) (a b : Nat) : Option (List Char) :=
if a ≤ b then (suffixAt l a).bind (fun suf => prefixAt suf (b - a)) else none

structure Selection where
src : List Char
start : Nat
stop : Nat
line : Nat
deriving DecidableEq

namespace Selection

def new (source : List Char) : Selection := ⟨source, 0, 0, 1⟩

/-- `peek`: `self.source[self.end..].chars().next()`. -/
def peek (s : Selection) : LRes (Option Char) :=
match suffixAt s.src s.stop with
| some suf => .ok suf.head?
| none => .panicked

/-- `peek_second`: uses checked `get`, which yields `None` instead of
panicking on a bad offset. -/
def peek_second (s : Selection) : Option Char :=
match suffixAt s.src (s.stop + 1) with
| some suf => suf.head?
| none => none

/-- Advance `end` by one (one *byte*, whatever the character width) and
bump the line counter on a newline. -/
def bump (s : Selection) (c : Char) : Selection :=
{ s with stop := s.stop + 1, line := if c = '\n' then s.line + 1 else s.line }

/-- `advance`. -/
def advance (s : Selection) : LRes (Option Char × Selection) :=
match s.peek with
| .panicked => .panicked
| .oom => .oom
| .ok none => .ok (none, s)
| .ok (some c) => .ok (some c, s.bump c)

/-- `try_match` (the sibling source spells it `advance_match`): advance
only when the next character is the expected one. -/
def try_match (s : Selection) (expected : Char) : LRes (Bool × Selection) :=
match s.peek with
| .panicked => .panicked
| .oom => .oom
| .ok (some c) =>
  if c = expected then .ok (true, { s with stop := s.stop + 1 }) else .ok (false, s)
| .ok none => .ok (false, s)

def advance_while_fuel (p : Char → Bool) : Nat → Selection → LRes Selection
| 0, _ => .oom
| fuel+1, s =>
  match s.peek with
  | .panicked => .panicked
  | .oom => .oom
  | .ok none => .ok s
  | .ok (some c) => if p c then advance_while_fuel p fuel (s.bump c) else .ok s

/-- `advance_while`: loop `peek`/`advance` while the predicate holds.
The fuel `byteLen src + 1` exceeds the number of possible iterations
(each moves `end` one byte forward). -/
def advance_while (p : Char → Bool) (s : Selection) : LRes Selection :=
advance_while_fuel p (byteLen s.src + 1) s

/-- `clear`: move the start of the selection to its end. -/
def clear (s : Selection) : Selection := { s with start := s.stop }

/-- `str`: `&self.source[self.start..self.end]`. -/
def str (s : Selection) : LRes (List Char) :=
match sliceBytes s.src s.start s.stop with
| some l => .ok l
| none => .panicked

/-- `eof`: `self.end >= self.source.len()`. -/
def eofAt (s : Selection) : Bool := byteLen s.src ≤ s.stop

end Selection

/-- `LexerInner::token`: build a token from the current selection. -/
def token (kind : TokenKind) (s : Selection) : LRes (Token × Selection) :=
match s.str with
| .panicked => .panicked
| .oom => .oom
| .ok l => .ok (⟨kind, l, s.line⟩, s)

/-- Modelled from the documented grammar of Rust's `f64::from_str`,
restricted to finite decimal literals (the only shape the lexer's
`number_token` can select, as proved below); the numeric value is kept
exact in `ℚ` instead of being rounded to the nearest double.  `none`
means `parse::<f64>()` fails. -/
def rustParseF64 (l : List Char) : Option ℚ :=
let (sgn, l1) : ℚ × List Char :=
  match l with
  | '+' :: t => (1, t)
  | '-' :: t => (-1, t)
  | _ => (1, l)
let ip := l1.takeWhile Char.isDigit
let l2 := l1.drop ip.length
let (fp, l3) : Option (List Char) × List Char :=
  match l2 with
  | '.' :: t => (some (t.takeWhile Char.isDigit), t.drop (t.takeWhile Char.isDigit).length)
  | _ => (none, l2)
let digitsOk : Bool :=
  match fp with
  | none => !ip.isEmpty
  | some f => !ip.isEmpty || !f.isEmpty
let (expOk, l4) : Bool × List Char :=
  match l3 with
  | e :: t =>
    if e = 'e' ∨ e = 'E' then
      let t2 : List Char := match t with
        | '+' :: u => u
        | '-' :: u => u
        | _ => t
      let ed := t2.takeWhile Char.isDigit
      (!ed.isEmpty, t2.drop ed.length)
    else (false, l3)
  | [] => (true, [])
if digitsOk ∧ expOk ∧ l4 = [] then
  let ipv : ℚ := ip.foldl (fun a c => a * 10 + (c.toNat - '0'.toNat : Nat)) 0
  let fpl := fp.getD []
  let fpv : ℚ := fpl.foldl (fun a c => a * 10 + (c.toNat - '0'.toNat : Nat)) 0
  some (sgn * (ipv + fpv / (10 ^ fpl.length)))
else none

/-- `LexerInner::string_token`. -/
def string_token (s : Selection) : LRes (Token × Selection) :=
match s.advance_while (fun c => c ≠ '"') with
| .panicked => .panicked
| .oom => .oom
| .ok s =>
  let is_terminated := !s.eofAt
  if is_terminated then
    match s.advance with
    | .panicked => .panicked
    | .oom => .oom
    | .ok (_, s) =>
      match s.str with
      | .panicked => .panicked
      | .oom => .oom
      | .ok l =>
        token (.string (String.mk ((l.drop 1).dropLast)) true) s
  else
    match s.str with
    | .panicked => .panicked
    | .oom => .oom
    | .ok l => token (.string (String.mk (l.drop 1)) false) s

/-- `LexerInner::number_token`.  The source's
`if let Some(('.', '0'..='9')) = peek().zip(peek_second())` is rendered
as the equivalent conditional on the two lookaheads; the trailing
`unwrap` on `str().parse::<f64>()` is modelled by `panicked` on a failed
parse. -/
def number_token (s : Selection) : LRes (Token × Selection) :=
match s.advance_while Char.isDigit with
| .panicked => .panicked
| .oom => .oom
| .ok s =>
  let step : LRes Selection :=
    match s.peek with
    | .panicked => .panicked
    | .oom => .oom
    | .ok c? =>
      if c? = some '.' ∧ s.peek_second.any Char.isDigit then
        match s.advance with
        | .panicked => .panicked
        | .oom => .oom
        | .ok (_, s) => s.advance_while Char.isDigit
      else .ok s
  match step with
  | .panicked => .panicked
  | .oom => .oom
  | .ok s =>
    match s.str with
    | .panicked => .panicked
    | .oom => .oom
    | .ok l =>
      match rustParseF64 l with
      | some value => token (.number value) s
      | none => .panicked

def isIdentChar (c : Char) : Bool :=
('A' ≤ c && c ≤ 'Z') || ('a' ≤ c && c ≤ 'z') || c = '_'

def keywordKind (text : List Char) : TokenKind :=
if text = "and".data then .and
else if text = "class".data then .class_
else if text = "else".data then .else_
else if text = "false".data then .false_
else if text = "for".data then .for_
else if text = "fun".data then .fun_
else if text = "if".data then .if_
else if text = "nil".data then .nil
else if text = "or".data then .or
else if text = "print".data then .print
else if text = "return".data then .return_
else if text = "super".data then .super_
else if text = "this".data then .this_
else if text = "true".data then .true_
else if text = "var".data then .var
else if text = "while".data then .while_
else .identifier

/-- `LexerInner::ident_token`. -/
def ident_token (s : Selection) : LRes (Token × Selection) :=
match s.advance_while isIdentChar with
| .panicked => .panicked
| .oom => .oom
| .ok s =>
  match s.str with
  | .panicked => .panicked
  | .oom => .oom
  | .ok text => token (keywordKind text) s

/-- `LexerInner::advance`: clear the selection, then dispatch on the next
character, skipping whitespace and line comments; the priority order of
the `match` arms in the source becomes a chain of conditions. -/
def advanceFuel : Nat → Selection → LRes (Token × Selection)
| 0, _ => .oom
| fuel+1, s =>
  let s := s.clear
  match s.advance with
  | .panicked => .panicked
  | .oom => .oom
  | .ok (none, s) => token .eof s
  | .ok (some c, s) =>
    if c = ' ' ∨ c = '\r' ∨ c = '\t' ∨ c = '\n' then advanceFuel fuel s
    else if c = '(' then token .leftParen s
    else if c = ')' then token .rightParen s
    else if c = '{' then token .leftBrace s
    else if c = '}' then token .rightBrace s
    else if c = ',' then token .comma s
    else if c = '.' then token .dot s
    else if c = '-' then token .minus s
    else if c = '+' then token .plus s
    else if c = ';' then token .semicolon s
    else if c = '*' then token .star s
    else if c = '!' then
      match s.try_match '=' with
      | .panicked => .panicked
      | .oom => .oom
      | .ok (true, s) => token .bangEqual s
      | .ok (false, s) => token .bang s
    else if c = '=' then
      match s.try_match '=' with
      | .panicked => .panicked
      | .oom => .oom
      | .ok (true, s) => token .equalEqual s
      | .ok (false, s) => token .equal s
    else if c = '<' then
      match s.try_match '=' with
      | .panicked => .panicked
      | .oom => .oom
      | .ok (true, s) => token .lessEqual s
      | .ok (false, s) => token .less s
    else if c = '>' then
      match s.try_match '=' with
      | .panicked => .panicked
      | .oom => .oom
      | .ok (true, s) => token .greaterEqual s
      | .ok (false, s) => token .greater s
    else if c = '/' then
      match s.try_match '/' with
      | .panicked => .panicked
      | .oom => .oom
      | .ok (true, s) =>
        match s.advance_while (fun c => c ≠ '\n') with
        | .panicked => .panicked
        | .oom => .oom
        | .ok s => advanceFuel fuel s
      | .ok (false, s) => token .slash s
    else if c = '"' then string_token s
    else if c.isDigit then number_token s
    else if isIdentChar c then ident_token s
    else token .unknown s

/-- `LexerInner::advance` with the fuel bound that the skip loop can
never exhaust (each iteration moves `end` at least one byte). -/
def advanceTok (s : Selection) : LRes (Token × Selection) :=
advanceFuel (byteLen s.src + 1) s

/-- Driver producing the whole token sequence: each entry pairs the text
skipped before the token (whitespace and comments) with the token; the
sequence stops at — and includes — the `Eof` token.  Also returns the
final selection. -/
def lexAllFuel : Nat → Selection → LRes (List (List Char × Token) × Selection)
| 0, _ => .oom
| fuel+1, s =>
  match advanceTok s with
  | .panicked => .panicked
  | .oom => .oom
  | .ok (t, s2) =>
    let skipped := (sliceBytes s2.src s.stop s2.start).getD []
    if t.kind = .eof then .ok ([(skipped, t)], s2)
    else
      match lexAllFuel fuel s2 with
      | .panicked => .panicked
      | .oom => .oom
      | .ok (rest, s3) => .ok ((skipped, t) :: rest, s3)

def lexAll (source : List Char) : LRes (List (List Char × Token) × Selection) :=
lexAllFuel (byteLen source + 2) (Selection.new source)

end Lexer

/-! ### Byte-offset lemmas -/

namespace Lexer

theorem byteLen_cons (c : Char) (l : List Char) :
    byteLen (c :: l) = c.utf8Size + byteLen l := by
  simp [byteLen]

theorem suffixAt_step (l : List Char) (c : Char) :
    ∀ (i : Nat) (r : List Char), suffixAt l i = some (c :: r) → c.utf8Size = 1 →
    suffixAt l (i + 1) = some r := by
  induction l with
  | nil =>
    intro i r h _
    cases i with
    | zero => simp [suffixAt] at h
    | succ j => simp [suffixAt] at h
  | cons d ds ih =>
    intro i r h hsz
    cases i with
    | zero =>
      simp [suffixAt] at h
      obtain ⟨h1, h2⟩ := h
      rw [show (0 + 1 : Nat) = 1 from rfl]
      simp only [suffixAt]
      rw [if_pos (by rw [h1, hsz])]
      rw [h1, hsz, h2]
      simp [suffixAt]
    | succ j =>
      simp only [suffixAt] at h
      by_cases hd : d.utf8Size ≤ j + 1
      · rw [if_pos hd] at h
        have := ih (j + 1 - d.utf8Size) r h hsz
        have harr : j + 1 - d.utf8Size + 1 = j + 1 + 1 - d.utf8Size := by omega
        rw [harr] at this
        simp only [suffixAt]
        rw [if_pos (by omega)]
        exact this
      · rw [if_neg hd] at h
        exact absurd h (by simp)

theorem suffixAt_nonempty_bound (l : List Char) :
    ∀ (i : Nat) (c : Char) (r : List Char), suffixAt l i = some (c :: r) →
    i + c.utf8Size ≤ byteLen l := by
  induction l with
  | nil =>
    intro i c r h
    cases i <;> simp [suffixAt] at h
  | cons d ds ih =>
    intro i c r h
    cases i with
    | zero =>
      simp [suffixAt] at h
      obtain ⟨h1, h2⟩ := h
      rw [byteLen_cons, h1]
      have := Char.utf8Size_pos c
      omega
    | succ j =>
      simp only [suffixAt] at h
      by_cases hd : d.utf8Size ≤ j + 1
      · rw [if_pos hd] at h
        have := ih _ _ _ h
        rw [byteLen_cons]
        omega
      · rw [if_neg hd] at h
        exact absurd h (by simp)

theorem prefixAt_of_take (l : List Char) :
    ∀ (n : Nat), n ≤ l.length → (∀ c ∈ l.take n, c.utf8Size = 1) →
    prefixAt l n = some (l.take n) := by
  induction l with
  | nil =>
    intro n hn _
    cases n with
    | zero => simp [prefixAt]
    | succ m => simp at hn
  | cons d ds ih =>
    intro n hn hsz
    cases n with
    | zero => simp [prefixAt]
    | succ m =>
      have hd : d.utf8Size = 1 := hsz d (by simp)
      simp only [prefixAt]
      rw [if_pos (by omega), hd]
      have hm : m + 1 - 1 = m := by omega
      rw [hm]
      rw [ih m (by simpa using hn) (fun c hc => hsz c (by simp [hc]))]
      simp

theorem suffixAt_ascii (l : List Char) :
    ∀ (i : Nat), (∀ c ∈ l, c.utf8Size = 1) → i ≤ l.length →
    suffixAt l i = some (l.drop i) := by
  induction l with
  | nil =>
    intro i _ hi
    cases i with
    | zero => simp [suffixAt]
    | succ j => simp at hi
  | cons d ds ih =>
    intro i hsz hi
    cases i with
    | zero => simp [suffixAt]
    | succ j =>
      have hd : d.utf8Size = 1 := hsz d (by simp)
      simp only [suffixAt]
      rw [if_pos (by omega), hd]
      have hj : j + 1 - 1 = j := by omega
      rw [hj]
      simpa using ih j (fun c hc => hsz c (by simp [hc])) (by simpa using hi)

theorem byteLen_ascii (l : List Char) (h : ∀ c ∈ l, c.utf8Size = 1) :
    byteLen l = l.length := by
  induction l with
  | nil => simp [byteLen]
  | cons d ds ih =>
    rw [byteLen_cons, h d (by simp), ih (fun c hc => h c (by simp [hc]))]
    simp [Nat.add_comm]

theorem sliceBytes_of_suffix (l suf : List Char) (a n : Nat)
    (hsuf : suffixAt l a = some suf) (hn : n ≤ suf.length)
    (hsz : ∀ c ∈ suf.take n, c.utf8Size = 1) :
    sliceBytes l a (a + n) = some (suf.take n) := by
  unfold sliceBytes
  rw [if_pos (by omega), hsuf]
  have hs : a + n - a = n := by omega
  simp only [Option.some_bind, hs]
  rw [prefixAt_of_take suf n hn hsz]

end Lexer

namespace Lexer

theorem takeWhile_all {p : Char → Bool} (l : List Char) (h : ∀ x ∈ l, p x = true) :
    l.takeWhile p = l := by
  induction l with
  | nil => simp
  | cons d ds ih =>
    rw [List.takeWhile_cons_of_pos (h d (by simp))]
    rw [ih (fun x hx => h x (by simp [hx]))]

theorem takeWhile_stop {p : Char → Bool} (A B : List Char) (y : Char)
    (hA : ∀ x ∈ A, p x = true) (hy : p y = false) :
    (A ++ y :: B).takeWhile p = A := by
  induction A with
  | nil =>
    rw [List.nil_append]
    exact List.takeWhile_cons_of_neg (by simp [hy])
  | cons d ds ih =>
    rw [List.cons_append, List.takeWhile_cons_of_pos (hA d (by simp))]
    rw [ih (fun x hx => hA x (by simp [hx]))]

theorem isDigit_ne_plus {c : Char} (h : c.isDigit = true) : c ≠ '+' := by
  intro he; subst he; simp [Char.isDigit] at h

theorem isDigit_ne_minus {c : Char} (h : c.isDigit = true) : c ≠ '-' := by
  intro he; subst he; simp [Char.isDigit] at h

theorem rustParseF64_digits (ds : List Char) (hne : ds ≠ [])
    (hd : ∀ c ∈ ds, c.isDigit = true) :
    ∃ v, rustParseF64 ds = some v := by
  cases ds with
  | nil => exact absurd rfl hne
  | cons d rest =>
    have hdd : d.isDigit = true := hd d (by simp)
    unfold rustParseF64
    have hsgn : (match d :: rest with
        | '+' :: t => ((1 : ℚ), t)
        | '-' :: t => ((-1 : ℚ), t)
        | _ => ((1 : ℚ), d :: rest)) = ((1 : ℚ), d :: rest) := by
      split
      · rename_i t heq
        injection heq with hh _
        exact absurd hh (isDigit_ne_plus hdd)
      · rename_i t heq
        injection heq with hh _
        exact absurd hh (isDigit_ne_minus hdd)
      · rfl
    rw [hsgn]
    simp only
    rw [takeWhile_all (d :: rest) hd]
    simp only [List.drop_length]
    exact ⟨_, rfl⟩

theorem rustParseF64_digits_frac (ds fs : List Char) (h1 : ds ≠ []) (h2 : fs ≠ [])
    (hd : ∀ c ∈ ds, c.isDigit = true) (hf : ∀ c ∈ fs, c.isDigit = true) :
    ∃ v, rustParseF64 (ds ++ '.' :: fs) = some v := by
  cases ds with
  | nil => exact absurd rfl h1
  | cons d rest =>
    have hdd : d.isDigit = true := hd d (by simp)
    unfold rustParseF64
    have hsgn : (match (d :: rest) ++ '.' :: fs with
        | '+' :: t => ((1 : ℚ), t)
        | '-' :: t => ((-1 : ℚ), t)
        | _ => ((1 : ℚ), (d :: rest) ++ '.' :: fs)) = ((1 : ℚ), (d :: rest) ++ '.' :: fs) := by
      rw [List.cons_append]
      split
      · rename_i t heq
        injection heq with hh _
        exact absurd hh (isDigit_ne_plus hdd)
      · rename_i t heq
        injection heq with hh _
        exact absurd hh (isDigit_ne_minus hdd)
      · rfl
    rw [hsgn]
    simp only
    rw [takeWhile_stop (d :: rest) fs '.' hd (by simp [Char.isDigit])]
    rw [List.drop_left]
    simp only
    rw [takeWhile_all fs hf, List.drop_length]
    simp only [List.isEmpty_cons]
    exact ⟨_, rfl⟩

theorem advance_while_fuel_spec (p : Char → Bool) :
    ∀ (fuel : Nat) (s : Selection) (suf : List Char),
    suffixAt s.src s.stop = some suf →
    (∀ c ∈ suf.takeWhile p, c.utf8Size = 1) →
    (suf.takeWhile p).length < fuel →
    ∃ ln, Selection.advance_while_fuel p fuel s =
      .ok ⟨s.src, s.start, s.stop + (suf.takeWhile p).length, ln⟩ := by
  intro fuel
  induction fuel with
  | zero => intro s suf _ _ hlt; omega
  | succ f ih =>
    intro s suf hsuf hsz hlt
    rw [Selection.advance_while_fuel]
    rw [show s.peek = .ok suf.head? by rw [Selection.peek, hsuf]]
    cases suf with
    | nil =>
      refine ⟨s.line, ?_⟩
      simp
    | cons c rest =>
      simp only [List.head?_cons]
      by_cases hp : p c = true
      · rw [List.takeWhile_cons_of_pos hp] at hsz hlt ⊢
        have hc1 : c.utf8Size = 1 := hsz c (by simp)
        have hstep : suffixAt (s.bump c).src (s.bump c).stop = some rest := by
          show suffixAt s.src (s.stop + 1) = some rest
          exact suffixAt_step s.src c s.stop rest hsuf hc1
        obtain ⟨ln, hrec⟩ := ih (s.bump c) rest hstep
          (fun x hx => hsz x (by simp [hx])) (by simpa using hlt)
        refine ⟨ln, ?_⟩
        rw [hp]
        simp only [if_true]
        rw [hrec]
        show _ = LRes.ok ⟨s.src, s.start, s.stop + (rest.takeWhile p).length.succ, ln⟩
        congr 1
        simp [Selection.bump]
        omega
      · rw [List.takeWhile_cons_of_neg (by simpa using hp)]
        refine ⟨s.line, ?_⟩
        simp [hp]

end Lexer

namespace Lexer

theorem byteLen_append (A B : List Char) : byteLen (A ++ B) = byteLen A + byteLen B := by
  simp [byteLen]

theorem size_one_of_isDigit {c : Char} (h : c.isDigit = true) : c.utf8Size = 1 := by
  simp [Char.isDigit] at h
  have hv : c.val ≤ 0x7F := by
    have h2 := h.2
    change c.val.toNat ≤ 57 at h2
    change c.val.toNat ≤ 127
    omega
  simp [Char.utf8Size, hv]

theorem suffixAt_byteLen (l : List Char) :
    ∀ (i : Nat) (suf : List Char), suffixAt l i = some suf →
    i + byteLen suf = byteLen l := by
  induction l with
  | nil =>
    intro i suf h
    cases i with
    | zero => simp [suffixAt] at h; subst h; omega
    | succ j => simp [suffixAt] at h
  | cons d ds ih =>
    intro i suf h
    cases i with
    | zero => simp [suffixAt] at h; subst h; omega
    | succ j =>
      simp only [suffixAt] at h
      by_cases hd : d.utf8Size ≤ j + 1
      · rw [if_pos hd] at h
        have := ih _ _ h
        rw [byteLen_cons]
        omega
      · rw [if_neg hd] at h
        exact absurd h (by simp)

theorem suffixAt_steps (l : List Char) :
    ∀ (n i : Nat) (suf : List Char), suffixAt l i = some suf →
    n ≤ suf.length → (∀ c ∈ suf.take n, c.utf8Size = 1) →
    suffixAt l (i + n) = some (suf.drop n) := by
  intro n
  induction n with
  | zero => intro i suf h _ _; simpa using h
  | succ m ih =>
    intro i suf h hn hsz
    cases suf with
    | nil => simp at hn
    | cons c rest =>
      have hc : c.utf8Size = 1 := hsz c (by simp)
      have hstep := suffixAt_step l c i rest h hc
      have := ih (i + 1) rest hstep (by simpa using hn)
        (fun x hx => hsz x (by simp [hx]))
      rw [show i + (m + 1) = i + 1 + m by omega]
      simpa using this

theorem drop_takeWhile_length (p : Char → Bool) (l : List Char) :
    l.drop (l.takeWhile p).length = l.dropWhile p := by
  nth_rewrite 2 [← List.takeWhile_append_dropWhile (p := p) (l := l)]
  rw [List.drop_left]

/-- Shape of the slice `number_token` selects: one or more digits,
optionally followed by a dot and one or more digits. -/
def numShape (l : List Char) : Bool :=
let ds := l.takeWhile Char.isDigit
let rest := l.drop ds.length
!ds.isEmpty &&
  (rest.isEmpty ||
    (rest.head? = some '.' && !(rest.drop 1).isEmpty && (rest.drop 1).all Char.isDigit))

end Lexer

namespace Lexer

theorem numShape_digits (ds : List Char) (h : ds ≠ []) (hd : ∀ x ∈ ds, x.isDigit = true) :
    numShape ds = true := by
  unfold numShape
  simp only [takeWhile_all ds hd, List.drop_length]
  simp [h]

theorem numShape_frac (ds fs : List Char) (h1 : ds ≠ []) (h2 : fs ≠ [])
    (hd : ∀ x ∈ ds, x.isDigit = true) (hf : ∀ x ∈ fs, x.isDigit = true) :
    numShape (ds ++ '.' :: fs) = true := by
  unfold numShape
  simp only [takeWhile_stop ds fs '.' hd (by simp [Char.isDigit]), List.drop_left]
  simp_all

theorem number_token_spec (s : Selection) (c : Char) (suf : List Char)
    (hsuf : suffixAt s.src s.start = some (c :: suf))
    (hc : c.isDigit = true)
    (hstop : s.stop = s.start + 1) :
    ∃ v n ln,
      1 ≤ n ∧ n ≤ (c :: suf).length ∧
      (∀ x ∈ (c :: suf).take n, x.utf8Size = 1) ∧
      numShape ((c :: suf).take n) = true ∧
      number_token s =
        .ok (⟨.number v, (c :: suf).take n, ln⟩, ⟨s.src, s.start, s.start + n, ln⟩) := by
  have hc1 : c.utf8Size = 1 := size_one_of_isDigit hc
  have h1 : suffixAt s.src (s.start + 1) = some suf :=
    suffixAt_step s.src c s.start suf hsuf hc1
  set ds2 := suf.takeWhile Char.isDigit with hds2
  set dw := suf.dropWhile Char.isDigit with hdw
  have hsplit : suf = ds2 ++ dw :=
    (List.takeWhile_append_dropWhile (p := Char.isDigit) (l := suf)).symm
  have hd2 : ∀ x ∈ ds2, x.isDigit = true := fun x hx => List.mem_takeWhile_imp hx
  have hsz2 : ∀ x ∈ ds2, x.utf8Size = 1 := fun x hx => size_one_of_isDigit (hd2 x hx)
  have hlen2 : ds2.length ≤ suf.length := by
    conv_rhs => rw [hsplit]
    simp
  have htake2 : suf.take ds2.length = ds2 := by
    conv_lhs => rw [hsplit]
    exact List.take_left ds2 dw
  have hfuel : ds2.length < byteLen s.src + 1 := by
    have hb := suffixAt_byteLen s.src (s.start + 1) suf h1
    have : byteLen suf = byteLen ds2 + byteLen dw := by
      conv_lhs => rw [hsplit]
      exact byteLen_append ds2 dw
    have hbl : byteLen ds2 = ds2.length := byteLen_ascii ds2 hsz2
    omega
  have hsuf1 : suffixAt s.src s.stop = some suf := by rw [hstop]; exact h1
  obtain ⟨ln1, hAW⟩ := advance_while_fuel_spec Char.isDigit (byteLen s.src + 1) s suf
    hsuf1 (fun x hx => hsz2 x hx) hfuel
  have hAW2 : s.advance_while Char.isDigit =
      .ok ⟨s.src, s.start, s.stop + ds2.length, ln1⟩ := hAW
  have hstop1 : s.stop + ds2.length = s.start + (1 + ds2.length) := by omega
  have hdwsuf : suffixAt s.src (s.stop + ds2.length) = some dw := by
    rw [hstop]
    have hsteps := suffixAt_steps s.src ds2.length (s.start + 1) suf h1 hlen2
      (by rw [htake2]; exact hsz2)
    rw [hsteps, hds2, hdw]
    exact congrArg some (drop_takeWhile_length Char.isDigit suf)
  have htakeA : (c :: suf).take (ds2.length + 1) = c :: ds2 := by
    rw [List.take_succ_cons, htake2]
  have hsizesA : ∀ x ∈ (c :: suf).take (ds2.length + 1), x.utf8Size = 1 := by
    rw [htakeA]
    intro x hx
    rcases List.mem_cons.mp hx with h | h
    · subst h; exact hc1
    · exact hsz2 x h
  have hstrA : (⟨s.src, s.start, s.stop + ds2.length, ln1⟩ : Selection).str =
      .ok (c :: ds2) := by
    rw [Selection.str]
    rw [show s.stop + ds2.length = s.start + (ds2.length + 1) by omega]
    rw [sliceBytes_of_suffix s.src (c :: suf) s.start (ds2.length + 1) hsuf
      (by simpa using hlen2) hsizesA]
    rw [htakeA]
  obtain ⟨vA, hvA⟩ := rustParseF64_digits (c :: ds2) (by simp)
    (by
      intro x hx
      rcases List.mem_cons.mp hx with h | h
      · subst h; exact hc
      · exact hd2 x h)
  have htokA : token (.number vA) ⟨s.src, s.start, s.stop + ds2.length, ln1⟩ =
      .ok (⟨.number vA, c :: ds2, ln1⟩, ⟨s.src, s.start, s.stop + ds2.length, ln1⟩) := by
    rw [token, hstrA]
  have hshapeA : numShape ((c :: suf).take (ds2.length + 1)) = true := by
    rw [htakeA]
    exact numShape_digits (c :: ds2) (by simp)
      (by
        intro x hx
        rcases List.mem_cons.mp hx with h | h
        · subst h; exact hc
        · exact hd2 x h)
  clear_value ds2 dw
  unfold number_token
  rw [hAW2]
  simp only
  have hpeek1 : Selection.peek ⟨s.src, s.start, s.stop + ds2.length, ln1⟩ =
      .ok dw.head? := by
    simp only [Selection.peek]
    rw [hdwsuf]
  rw [hpeek1]
  simp only
  by_cases hfrac : dw.head? = some '.' ∧
      Option.any Char.isDigit
        (Selection.peek_second ⟨s.src, s.start, s.stop + ds2.length, ln1⟩) = true
  · obtain ⟨hdot, hdig⟩ := hfrac
    rw [if_pos ⟨hdot, hdig⟩]
    cases hdwc : dw with
    | nil => rw [hdwc] at hdot; simp at hdot
    | cons y dw2 =>
      rw [hdwc] at hdot
      simp only [List.head?_cons, Option.some.injEq] at hdot
      subst hdot
      rw [hdwc] at hdwsuf
      have hsuf2 : suffixAt s.src (s.stop + ds2.length + 1) = some dw2 :=
        suffixAt_step s.src '.' (s.stop + ds2.length) dw2 hdwsuf (by decide)
      have hps2 : Selection.peek_second ⟨s.src, s.start, s.stop + ds2.length, ln1⟩ =
          dw2.head? := by
        simp only [Selection.peek_second]
        rw [hsuf2]
      rw [hps2] at hdig
      cases hdw2c : dw2 with
      | nil => rw [hdw2c] at hdig; simp [Option.any] at hdig
      | cons c2 dw3 =>
        rw [hdw2c] at hdig
        simp only [List.head?_cons, Option.any_some] at hdig
        rw [hdw2c] at hsuf2
        have hadv : Selection.advance ⟨s.src, s.start, s.stop + ds2.length, ln1⟩ =
            .ok (some '.', ⟨s.src, s.start, s.stop + ds2.length + 1, ln1⟩) := by
          rw [Selection.advance, hpeek1, hdwc]
          simp [Selection.bump]
        rw [hadv]
        simp only
        set ds3 := (c2 :: dw3).takeWhile Char.isDigit with hds3
        set dw4 := (c2 :: dw3).dropWhile Char.isDigit with hdw4
        have hsplit2 : c2 :: dw3 = ds3 ++ dw4 :=
          (List.takeWhile_append_dropWhile (p := Char.isDigit) (l := c2 :: dw3)).symm
        have hd3 : ∀ x ∈ ds3, x.isDigit = true := fun x hx => List.mem_takeWhile_imp hx
        have hsz3 : ∀ x ∈ ds3, x.utf8Size = 1 := fun x hx => size_one_of_isDigit (hd3 x hx)
        have hlen3 : ds3.length ≤ (c2 :: dw3).length := by
          conv_rhs => rw [hsplit2]
          simp
        have htake3 : (c2 :: dw3).take ds3.length = ds3 := by
          conv_lhs => rw [hsplit2]
          exact List.take_left ds3 dw4
        have hfuel3 : ds3.length < byteLen s.src + 1 := by
          have hb := suffixAt_byteLen s.src (s.stop + ds2.length + 1) (c2 :: dw3) hsuf2
          have h1 : byteLen (c2 :: dw3) = byteLen ds3 + byteLen dw4 := by
            conv_lhs => rw [hsplit2]
            exact byteLen_append ds3 dw4
          have h2 : byteLen ds3 = ds3.length := byteLen_ascii ds3 hsz3
          omega
        obtain ⟨ln3, hAW3⟩ := advance_while_fuel_spec Char.isDigit (byteLen s.src + 1)
          ⟨s.src, s.start, s.stop + ds2.length + 1, ln1⟩ (c2 :: dw3) hsuf2
          (fun x hx => hsz3 x hx) hfuel3
        rw [show Selection.advance_while Char.isDigit
            ⟨s.src, s.start, s.stop + ds2.length + 1, ln1⟩ =
            Selection.advance_while_fuel Char.isDigit (byteLen s.src + 1)
              ⟨s.src, s.start, s.stop + ds2.length + 1, ln1⟩ from rfl]
        rw [hAW3]
        simp only
        have hds3ne : ds3 ≠ [] := by
          rw [hds3, List.takeWhile_cons_of_pos hdig]
          simp
        have htakeB : (c :: suf).take (ds2.length + ds3.length + 2) =
            c :: ds2 ++ '.' :: ds3 := by
          have hform : c :: suf = (c :: ds2 ++ '.' :: ds3) ++ dw4 := by
            rw [hsplit, hdwc, hdw2c, hsplit2]
            simp
          rw [hform]
          rw [List.take_left' (by simp; omega)]
        have hsizesB : ∀ x ∈ (c :: suf).take (ds2.length + ds3.length + 2),
            x.utf8Size = 1 := by
          rw [htakeB]
          intro x hx
          simp only [List.cons_append, List.mem_cons, List.mem_append] at hx
          rcases hx with h | h
          · subst h; exact hc1
          · rcases h with h | h
            · exact hsz2 x h
            · rcases h with h | h
              · subst h; decide
              · exact hsz3 x h
        have hlenB : ds2.length + ds3.length + 2 ≤ (c :: suf).length := by
          have hform : c :: suf = (c :: ds2 ++ '.' :: ds3) ++ dw4 := by
            rw [hsplit, hdwc, hdw2c, hsplit2]
            simp
          have := congrArg List.length hform
          simp at this ⊢
          omega
        have hstrB : (⟨s.src, s.start, s.stop + ds2.length + 1 + ds3.length, ln3⟩
            : Selection).str = .ok (c :: ds2 ++ '.' :: ds3) := by
          rw [Selection.str]
          rw [show s.stop + ds2.length + 1 + ds3.length =
            s.start + (ds2.length + ds3.length + 2) by omega]
          rw [sliceBytes_of_suffix s.src (c :: suf) s.start (ds2.length + ds3.length + 2)
            hsuf hlenB hsizesB]
          rw [htakeB]
        obtain ⟨vB, hvB⟩ := rustParseF64_digits_frac (c :: ds2) ds3 (by simp) hds3ne
          (by
            intro x hx
            rcases List.mem_cons.mp hx with h | h
            · subst h; exact hc
            · exact hd2 x h) hd3
        rw [hstrB]
        simp only
        rw [show (c :: ds2) ++ '.' :: ds3 = c :: ds2 ++ '.' :: ds3 from rfl] at hvB
        rw [hvB]
        simp only
        rw [token, hstrB]
        refine ⟨vB, ds2.length + ds3.length + 2, ln3, by omega, hlenB, hsizesB, ?_, ?_⟩
        · rw [htakeB]
          exact numShape_frac (c :: ds2) ds3 (by simp) hds3ne
            (by
              intro x hx
              rcases List.mem_cons.mp hx with h | h
              · subst h; exact hc
              · exact hd2 x h) hd3
        · rw [htakeB]
          rw [show s.start + (ds2.length + ds3.length + 2) =
            s.stop + ds2.length + 1 + ds3.length by omega]
  · rw [if_neg hfrac]
    simp only
    rw [hstrA]
    simp only
    rw [hvA]
    simp only
    rw [htokA]
    refine ⟨vA, ds2.length + 1, ln1, by omega, by simpa using hlen2, hsizesA, hshapeA, ?_⟩
    rw [htakeA]
    rw [show s.start + (ds2.length + 1) = s.stop + ds2.length by omega]

end Lexer

namespace Lexer

theorem rustParseF64_of_numShape (l : List Char) (h : numShape l = true) :
    ∃ v, rustParseF64 l = some v := by
  unfold numShape at h
  simp only [Bool.and_eq_true, Bool.or_eq_true, Bool.not_eq_eq_eq_not, Bool.not_true,
    List.isEmpty_eq_false, List.isEmpty_iff, decide_eq_true_eq] at h
  obtain ⟨hne, hrest⟩ := h
  have hd : ∀ x ∈ l.takeWhile Char.isDigit, x.isDigit = true :=
    fun x hx => List.mem_takeWhile_imp hx
  have hsplit : l = l.takeWhile Char.isDigit ++ l.dropWhile Char.isDigit :=
    (List.takeWhile_append_dropWhile (p := Char.isDigit) (l := l)).symm
  rw [drop_takeWhile_length] at hrest
  rcases hrest with hnil | ⟨⟨hhead, hlen⟩, hall⟩
  · have : l = l.takeWhile Char.isDigit := by
      conv_lhs => rw [hsplit]
      rw [hnil, List.append_nil]
    rw [this]
    exact rustParseF64_digits _ hne hd
  · cases hdw : l.dropWhile Char.isDigit with
    | nil => rw [hdw] at hhead; simp at hhead
    | cons y fs =>
      rw [hdw] at hhead hall hlen
      simp only [List.head?_cons, Option.some.injEq] at hhead
      subst hhead
      simp only [List.drop_succ_cons, List.drop_zero] at hall hlen
      rw [show (rustParseF64 l : Option ℚ) =
        rustParseF64 (l.takeWhile Char.isDigit ++ '.' :: fs) by rw [← hdw, ← hsplit]]
      exact rustParseF64_digits_frac _ fs hne
        (by simpa using hlen) hd (by simpa [List.all_eq_true] using hall)

end Lexer

/-- Claim C10: `number_token` cannot reach its internal `unwrap` failure
(nor any slicing panic).  Whenever the lexer dispatches to
`number_token` — the selection was just cleared and one ASCII-digit
character consumed, so the selection covers exactly that digit — the
returned token's lexeme consists of one or more digits optionally
followed by `'.'` and one or more digits, and `f64` parsing of that
slice succeeds, so `number_token` returns a token rather than a panic. -/
theorem c10_number_token_no_panic (s : Lexer.Selection) (c : Char) (suf : List Char)
    (hsuf : Lexer.suffixAt s.src s.start = some (c :: suf))
    (hc : c.isDigit = true)
    (hstop : s.stop = s.start + 1) :
    ∃ tok s2,
      Lexer.number_token s = .ok (tok, s2) ∧
      Lexer.numShape tok.lexeme = true ∧
      ∃ v, Lexer.rustParseF64 tok.lexeme = some v := by
  obtain ⟨v, n, ln, -, -, -, hshape, heq⟩ :=
    Lexer.number_token_spec s c suf hsuf hc hstop
  exact ⟨_, _, heq, hshape, Lexer.rustParseF64_of_numShape _ hshape⟩

/-- Witness for `c10_number_token_no_panic` on the source `12.5x` with
the first digit consumed. -/
theorem c10_number_token_no_panic_witness :
    (Lexer.suffixAt ("12.5x".data) 0 = some ('1' :: "2.5x".data) ∧
      ('1').isDigit = true ∧ (1 : Nat) = 0 + 1) ∧
    (∃ tok s2,
      Lexer.number_token ⟨"12.5x".data, 0, 1, 1⟩ = .ok (tok, s2) ∧
      Lexer.numShape tok.lexeme = true ∧
      ∃ v, Lexer.rustParseF64 tok.lexeme = some v) :=
  ⟨⟨by decide, by decide, by decide⟩,
   c10_number_token_no_panic ⟨"12.5x".data, 0, 1, 1⟩ '1' ("2.5x".data)
     (by decide) (by decide) (by decide)⟩

namespace Lexer

theorem sliceBytes_ascii (l : List Char) (a b : Nat) (hA : ∀ x ∈ l, x.utf8Size = 1)
    (hab : a ≤ b) (hb : b ≤ l.length) :
    sliceBytes l a b = some ((l.drop a).take (b - a)) := by
  unfold sliceBytes
  rw [if_pos hab, suffixAt_ascii l a hA (le_trans hab hb)]
  simp only [Option.some_bind]
  rw [prefixAt_of_take _ _ (by simp; omega)
    (fun x hx => hA x (List.mem_of_mem_drop (List.mem_of_mem_take hx)))]

theorem peek_ascii (s : Selection) (hA : ∀ x ∈ s.src, x.utf8Size = 1)
    (h : s.stop ≤ s.src.length) :
    s.peek = .ok (s.src.drop s.stop).head? := by
  rw [Selection.peek, suffixAt_ascii s.src s.stop hA h]

theorem str_ascii (s : Selection) (hA : ∀ x ∈ s.src, x.utf8Size = 1)
    (h1 : s.start ≤ s.stop) (h2 : s.stop ≤ s.src.length) :
    s.str = .ok ((s.src.drop s.start).take (s.stop - s.start)) := by
  rw [Selection.str, sliceBytes_ascii s.src s.start s.stop hA h1 h2]

theorem token_ascii (k : TokenKind) (s : Selection) (hA : ∀ x ∈ s.src, x.utf8Size = 1)
    (h1 : s.start ≤ s.stop) (h2 : s.stop ≤ s.src.length) :
    token k s = .ok (⟨k, (s.src.drop s.start).take (s.stop - s.start), s.line⟩, s) := by
  rw [token, str_ascii s hA h1 h2]

theorem try_match_ascii (s : Selection) (e : Char) (hA : ∀ x ∈ s.src, x.utf8Size = 1)
    (h : s.stop ≤ s.src.length) :
    s.try_match e =
      if (s.src.drop s.stop).head? = some e then .ok (true, { s with stop := s.stop + 1 })
      else .ok (false, s) := by
  rw [Selection.try_match, peek_ascii s hA h]
  rcases hh : (s.src.drop s.stop).head? with _ | c
  · simp
  · show (if c = e then _ else _) = _
    by_cases hc : c = e
    · subst hc
      simp
    · rw [if_neg hc, if_neg (fun hce => hc (Option.some.inj hce))]

theorem advance_while_ascii (p : Char → Bool) (s : Selection)
    (hA : ∀ x ∈ s.src, x.utf8Size = 1) (h : s.stop ≤ s.src.length) :
    ∃ ln, s.advance_while p =
      .ok ⟨s.src, s.start, s.stop + ((s.src.drop s.stop).takeWhile p).length, ln⟩ := by
  have hsuf : suffixAt s.src s.stop = some (s.src.drop s.stop) :=
    suffixAt_ascii s.src s.stop hA h
  have hsz : ∀ x ∈ (s.src.drop s.stop).takeWhile p, x.utf8Size = 1 :=
    fun x hx => hA x (List.mem_of_mem_drop ((List.takeWhile_sublist _).subset hx))
  have hfu : ((s.src.drop s.stop).takeWhile p).length < byteLen s.src + 1 := by
    have h1 : ((s.src.drop s.stop).takeWhile p).length ≤ (s.src.drop s.stop).length :=
      (List.takeWhile_sublist _).length_le
    have h2 : (s.src.drop s.stop).length ≤ s.src.length := by simp
    have h3 := byteLen_ascii s.src hA
    omega
  exact advance_while_fuel_spec p (byteLen s.src + 1) s (s.src.drop s.stop) hsuf hsz hfu

theorem slice_split (l : List Char) (a b c : Nat) (h1 : a ≤ b) (h2 : b ≤ c) :
    (l.drop a).take (b - a) ++ (l.drop b).take (c - b) = (l.drop a).take (c - a) := by
  have hdd : l.drop b = (l.drop a).drop (b - a) := by
    rw [List.drop_drop]
    congr 1
    omega
  rw [hdd]
  have hc2 : c - a = (b - a) + (c - b) := by omega
  rw [hc2, List.take_add]

end Lexer

namespace Lexer

/-- Conclusion bundle shared by every arm of `LexerInner::advance`:
token plus well-placed selection, lexeme as the exact source slice,
`Eof` exactly at the end of input, progress otherwise. -/
def AdvanceOut (src : List Char) (sp : Nat) (t : Token) (s2 : Selection) : Prop :=
s2.src = src ∧
sp ≤ s2.start ∧ s2.start ≤ s2.stop ∧ s2.stop ≤ src.length ∧
t.lexeme = (src.drop s2.start).take (s2.stop - s2.start) ∧
(t.kind = .eof → s2.stop = src.length ∧ s2.start = s2.stop) ∧
(t.kind ≠ .eof → sp < s2.stop)

theorem arm_token_spec (src : List Char) (hA : ∀ x ∈ src, x.utf8Size = 1)
    (k : TokenKind) (hk : k ≠ .eof) (sp e ln : Nat)
    (h1 : sp < e) (h2 : e ≤ src.length) :
    ∃ t s2, token k ⟨src, sp, e, ln⟩ = .ok (t, s2) ∧ AdvanceOut src sp t s2 := by
  rw [token_ascii k ⟨src, sp, e, ln⟩ hA (show sp ≤ e by omega) h2]
  exact ⟨_, _, rfl, rfl, show sp ≤ sp from le_refl _, show sp ≤ e from by omega,
    h2, rfl, fun he => absurd he hk, fun _ => show sp < e from h1⟩

theorem ite_ne_eof {c : Prop} [i : Decidable c] {a b : TokenKind}
    (ha : a ≠ TokenKind.eof) (hb : b ≠ TokenKind.eof) :
    (if c then a else b) ≠ TokenKind.eof := by
  split
  · exact ha
  · exact hb

theorem keywordKind_ne_eof (text : List Char) : keywordKind text ≠ .eof := by
  unfold keywordKind
  exact ite_ne_eof (by decide) (ite_ne_eof (by decide) (ite_ne_eof (by decide)
    (ite_ne_eof (by decide) (ite_ne_eof (by decide) (ite_ne_eof (by decide)
    (ite_ne_eof (by decide) (ite_ne_eof (by decide) (ite_ne_eof (by decide)
    (ite_ne_eof (by decide) (ite_ne_eof (by decide) (ite_ne_eof (by decide)
    (ite_ne_eof (by decide) (ite_ne_eof (by decide) (ite_ne_eof (by decide)
    (ite_ne_eof (by decide) (by decide))))))))))))))))

theorem head?_drop_lt (l : List Char) (i : Nat) (c : Char)
    (h : (l.drop i).head? = some c) : i < l.length := by
  by_contra hc
  rw [List.drop_eq_nil_of_le (by omega)] at h
  simp at h

theorem string_token_ascii (src : List Char) (hA : ∀ x ∈ src, x.utf8Size = 1)
    (sp ln : Nat) (h1 : sp < src.length) :
    ∃ t s2, string_token ⟨src, sp, sp + 1, ln⟩ = .ok (t, s2) ∧ AdvanceOut src sp t s2 := by
  unfold string_token
  obtain ⟨ln2, hAW⟩ := advance_while_ascii (fun c => c ≠ '"') ⟨src, sp, sp + 1, ln⟩ hA
    (show sp + 1 ≤ src.length by omega)
  rw [hAW]
  simp only
  set n := ((src.drop (sp + 1)).takeWhile (fun c => c ≠ '"')).length with hn
  have hnb : n ≤ src.length - (sp + 1) := by
    have hsub : ((src.drop (sp + 1)).takeWhile (fun c => c ≠ '"')).length ≤
        (src.drop (sp + 1)).length := (List.takeWhile_sublist _).length_le
    rw [List.length_drop] at hsub
    exact hsub
  rcases le_or_lt src.length (sp + 1 + n) with hend | hend
  · have hcond : (!Selection.eofAt ⟨src, sp, sp + 1 + n, ln2⟩) = false := by
      simp [Selection.eofAt, byteLen_ascii src hA]
      omega
    rw [hcond]
    simp only [Bool.false_eq_true, if_false]
    rw [str_ascii ⟨src, sp, sp + 1 + n, ln2⟩ hA (show sp ≤ sp + 1 + n by omega)
      (show sp + 1 + n ≤ src.length by omega)]
    simp only
    rw [token_ascii _ ⟨src, sp, sp + 1 + n, ln2⟩ hA (show sp ≤ sp + 1 + n by omega)
      (show sp + 1 + n ≤ src.length by omega)]
    refine ⟨_, _, rfl, rfl, show sp ≤ sp from le_refl _,
      show sp ≤ sp + 1 + n by omega, show sp + 1 + n ≤ src.length by omega, rfl,
      fun he => by simp at he, fun _ => show sp < sp + 1 + n by omega⟩
  · have hcond : (!Selection.eofAt ⟨src, sp, sp + 1 + n, ln2⟩) = true := by
      simp [Selection.eofAt, byteLen_ascii src hA]
      omega
    rw [hcond]
    simp only [if_true]
    have hpk : (⟨src, sp, sp + 1 + n, ln2⟩ : Selection).peek =
        .ok ((src.drop (sp + 1 + n)).head?) :=
      peek_ascii _ hA (show sp + 1 + n ≤ src.length by omega)
    rw [Selection.advance, hpk]
    cases hh : (src.drop (sp + 1 + n)).head? with
    | none =>
      rw [List.head?_eq_none_iff] at hh
      have := congrArg List.length hh
      simp at this
      omega
    | some c =>
      simp only
      have hbump : Selection.bump ⟨src, sp, sp + 1 + n, ln2⟩ c =
          ⟨src, sp, sp + 1 + n + 1, if c = '\n' then ln2 + 1 else ln2⟩ := rfl
      rw [hbump]
      rw [str_ascii ⟨src, sp, sp + 1 + n + 1, if c = '\n' then ln2 + 1 else ln2⟩ hA
        (show sp ≤ sp + 1 + n + 1 by omega) (show sp + 1 + n + 1 ≤ src.length by omega)]
      simp only
      rw [token_ascii _ ⟨src, sp, sp + 1 + n + 1, if c = '\n' then ln2 + 1 else ln2⟩ hA
        (show sp ≤ sp + 1 + n + 1 by omega) (show sp + 1 + n + 1 ≤ src.length by omega)]
      refine ⟨_, _, rfl, rfl, show sp ≤ sp from le_refl _,
        show sp ≤ sp + 1 + n + 1 by omega, show sp + 1 + n + 1 ≤ src.length by omega, rfl,
        fun he => by simp at he, fun _ => show sp < sp + 1 + n + 1 by omega⟩

theorem ident_token_ascii (src : List Char) (hA : ∀ x ∈ src, x.utf8Size = 1)
    (sp ln : Nat) (h1 : sp < src.length) :
    ∃ t s2, ident_token ⟨src, sp, sp + 1, ln⟩ = .ok (t, s2) ∧ AdvanceOut src sp t s2 := by
  unfold ident_token
  obtain ⟨ln2, hAW⟩ := advance_while_ascii isIdentChar ⟨src, sp, sp + 1, ln⟩ hA
    (show sp + 1 ≤ src.length by omega)
  rw [hAW]
  simp only
  set m := ((src.drop (sp + 1)).takeWhile isIdentChar).length with hm
  have hmb : m ≤ src.length - (sp + 1) := by
    have hsub : ((src.drop (sp + 1)).takeWhile isIdentChar).length ≤
        (src.drop (sp + 1)).length := (List.takeWhile_sublist _).length_le
    rw [List.length_drop] at hsub
    exact hsub
  rw [str_ascii ⟨src, sp, sp + 1 + m, ln2⟩ hA (show sp ≤ sp + 1 + m by omega)
    (show sp + 1 + m ≤ src.length by omega)]
  simp only
  rw [token_ascii _ ⟨src, sp, sp + 1 + m, ln2⟩ hA (show sp ≤ sp + 1 + m by omega)
    (show sp + 1 + m ≤ src.length by omega)]
  refine ⟨_, _, rfl, rfl, show sp ≤ sp from le_refl _,
    show sp ≤ sp + 1 + m by omega, show sp + 1 + m ≤ src.length by omega, rfl,
    fun he => absurd he (keywordKind_ne_eof _), fun _ => show sp < sp + 1 + m by omega⟩

theorem number_token_ascii (src : List Char) (hA : ∀ x ∈ src, x.utf8Size = 1)
    (sp ln : Nat) (c : Char) (hc : c.isDigit = true)
    (hhd : (src.drop sp).head? = some c) :
    ∃ t s2, number_token ⟨src, sp, sp + 1, ln⟩ = .ok (t, s2) ∧ AdvanceOut src sp t s2 := by
  have hlt : sp < src.length := head?_drop_lt src sp c hhd
  cases hdr : src.drop sp with
  | nil => rw [hdr] at hhd; simp at hhd
  | cons c' suf =>
    rw [hdr] at hhd
    simp at hhd
    subst hhd
    have hsuf : suffixAt src sp = some (c' :: suf) := by
      rw [suffixAt_ascii src sp hA (by omega), hdr]
    obtain ⟨v, n, ln', hn1, hn2, hsz, hshape, heq⟩ :=
      number_token_spec ⟨src, sp, sp + 1, ln⟩ c' suf hsuf hc rfl
    have hlen : (c' :: suf).length = src.length - sp := by
      rw [← hdr]
      simp
    refine ⟨_, _, heq, rfl, show sp ≤ sp from le_refl _,
      show sp ≤ sp + n by omega, show sp + n ≤ src.length by omega,
      show (c' :: suf).take n = (src.drop sp).take (sp + n - sp) by
        rw [hdr]
        congr 1
        omega,
      fun he => absurd he (by simp), fun _ => show sp < sp + n by omega⟩

theorem AdvanceOut.mono (src : List Char) (sp sq : Nat) (t : Token) (s2 : Selection)
    (h : sp ≤ sq) (ho : AdvanceOut src sq t s2) : AdvanceOut src sp t s2 := by
  obtain ⟨h1, h2, h3, h4, h5, h6, h7⟩ := ho
  exact ⟨h1, by omega, h3, h4, h5, h6, fun hne => lt_of_le_of_lt h (h7 hne)⟩

set_option maxHeartbeats 4000000 in
theorem advanceFuel_spec (src : List Char) (hA : ∀ x ∈ src, x.utf8Size = 1) :
    ∀ (fuel b sp ln : Nat), sp ≤ src.length → src.length - sp < fuel →
    ∃ t s2, advanceFuel fuel ⟨src, b, sp, ln⟩ = .ok (t, s2) ∧ AdvanceOut src sp t s2 := by
  intro fuel
  induction fuel with
  | zero =>
    intro b sp ln h1 h2
    omega
  | succ fuel ih =>
    intro b sp ln h1 h2
    rw [advanceFuel]
    have hclear : Selection.clear ⟨src, b, sp, ln⟩ = ⟨src, sp, sp, ln⟩ := rfl
    rw [hclear, Selection.advance, peek_ascii ⟨src, sp, sp, ln⟩ hA h1]
    cases hh : (src.drop sp).head? with
    | none =>
      simp only
      rw [token_ascii .eof ⟨src, sp, sp, ln⟩ hA (le_refl sp) h1]
      have hsp : sp = src.length := by
        rw [List.head?_eq_none_iff] at hh
        have := congrArg List.length hh
        simp at this
        omega
      exact ⟨_, _, rfl, rfl, le_refl sp, le_refl sp, h1, by simp,
        fun _ => ⟨hsp, rfl⟩, fun hne => absurd rfl hne⟩
    | some c =>
      simp only
      have hsplt : sp < src.length := head?_drop_lt src sp c hh
      have hbump : Selection.bump ⟨src, sp, sp, ln⟩ c =
          ⟨src, sp, sp + 1, if c = '\n' then ln + 1 else ln⟩ := rfl
      rw [hbump]
      set ln2 := if c = '\n' then ln + 1 else ln with hln2
      by_cases hws : c = ' ' ∨ c = '\r' ∨ c = '\t' ∨ c = '\n'
      · rw [if_pos hws]
        obtain ⟨t, s2, heq, hout⟩ := ih sp (sp + 1) ln2 (by omega) (by omega)
        exact ⟨t, s2, heq, AdvanceOut.mono src sp (sp + 1) t s2 (by omega) hout⟩
      rw [if_neg hws]
      by_cases hc1 : c = '('
      · rw [if_pos hc1]
        exact arm_token_spec src hA .leftParen (by decide) sp (sp + 1) ln2 (by omega) (by omega)
      rw [if_neg hc1]
      by_cases hc2 : c = ')'
      · rw [if_pos hc2]
        exact arm_token_spec src hA .rightParen (by decide) sp (sp + 1) ln2 (by omega) (by omega)
      rw [if_neg hc2]
      by_cases hc3 : c = '\x7b'
      · rw [if_pos hc3]
        exact arm_token_spec src hA .leftBrace (by decide) sp (sp + 1) ln2 (by omega) (by omega)
      rw [if_neg hc3]
      by_cases hc4 : c = '\x7d'
      · rw [if_pos hc4]
        exact arm_token_spec src hA .rightBrace (by decide) sp (sp + 1) ln2 (by omega) (by omega)
      rw [if_neg hc4]
      by_cases hc5 : c = ','
      · rw [if_pos hc5]
        exact arm_token_spec src hA .comma (by decide) sp (sp + 1) ln2 (by omega) (by omega)
      rw [if_neg hc5]
      by_cases hc6 : c = '.'
      · rw [if_pos hc6]
        exact arm_token_spec src hA .dot (by decide) sp (sp + 1) ln2 (by omega) (by omega)
      rw [if_neg hc6]
      by_cases hc7 : c = '-'
      · rw [if_pos hc7]
        exact arm_token_spec src hA .minus (by decide) sp (sp + 1) ln2 (by omega) (by omega)
      rw [if_neg hc7]
      by_cases hc8 : c = '+'
      · rw [if_pos hc8]
        exact arm_token_spec src hA .plus (by decide) sp (sp + 1) ln2 (by omega) (by omega)
      rw [if_neg hc8]
      by_cases hc9 : c = ';'
      · rw [if_pos hc9]
        exact arm_token_spec src hA .semicolon (by decide) sp (sp + 1) ln2 (by omega) (by omega)
      rw [if_neg hc9]
      by_cases hc10 : c = '*'
      · rw [if_pos hc10]
        exact arm_token_spec src hA .star (by decide) sp (sp + 1) ln2 (by omega) (by omega)
      rw [if_neg hc10]
      by_cases hc11 : c = '!'
      · rw [if_pos hc11]
        rw [try_match_ascii ⟨src, sp, sp + 1, ln2⟩ '=' hA (show sp + 1 ≤ src.length by omega)]
        by_cases hm1 : (src.drop (sp + 1)).head? = some '='
        · rw [if_pos hm1]
          simp only
          have h2lt : sp + 1 < src.length := head?_drop_lt src (sp + 1) '=' hm1
          exact arm_token_spec src hA .bangEqual (by decide) sp (sp + 1 + 1) ln2
            (by omega) (by omega)
        · rw [if_neg hm1]
          simp only
          exact arm_token_spec src hA .bang (by decide) sp (sp + 1) ln2 (by omega) (by omega)
      rw [if_neg hc11]
      by_cases hc12 : c = '='
      · rw [if_pos hc12]
        rw [try_match_ascii ⟨src, sp, sp + 1, ln2⟩ '=' hA (show sp + 1 ≤ src.length by omega)]
        by_cases hm2 : (src.drop (sp + 1)).head? = some '='
        · rw [if_pos hm2]
          simp only
          have h2lt : sp + 1 < src.length := head?_drop_lt src (sp + 1) '=' hm2
          exact arm_token_spec src hA .equalEqual (by decide) sp (sp + 1 + 1) ln2
            (by omega) (by omega)
        · rw [if_neg hm2]
          simp only
          exact arm_token_spec src hA .equal (by decide) sp (sp + 1) ln2 (by omega) (by omega)
      rw [if_neg hc12]
      by_cases hc13 : c = '<'
      · rw [if_pos hc13]
        rw [try_match_ascii ⟨src, sp, sp + 1, ln2⟩ '=' hA (show sp + 1 ≤ src.length by omega)]
        by_cases hm3 : (src.drop (sp + 1)).head? = some '='
        · rw [if_pos hm3]
          simp only
          have h2lt : sp + 1 < src.length := head?_drop_lt src (sp + 1) '=' hm3
          exact arm_token_spec src hA .lessEqual (by decide) sp (sp + 1 + 1) ln2
            (by omega) (by omega)
        · rw [if_neg hm3]
          simp only
          exact arm_token_spec src hA .less (by decide) sp (sp + 1) ln2 (by omega) (by omega)
      rw [if_neg hc13]
      by_cases hc14 : c = '>'
      · rw [if_pos hc14]
        rw [try_match_ascii ⟨src, sp, sp + 1, ln2⟩ '=' hA (show sp + 1 ≤ src.length by omega)]
        by_cases hm4 : (src.drop (sp + 1)).head? = some '='
        · rw [if_pos hm4]
          simp only
          have h2lt : sp + 1 < src.length := head?_drop_lt src (sp + 1) '=' hm4
          exact arm_token_spec src hA .greaterEqual (by decide) sp (sp + 1 + 1) ln2
            (by omega) (by omega)
        · rw [if_neg hm4]
          simp only
          exact arm_token_spec src hA .greater (by decide) sp (sp + 1) ln2 (by omega) (by omega)
      rw [if_neg hc14]
      by_cases hc15 : c = '/'
      · rw [if_pos hc15]
        rw [try_match_ascii ⟨src, sp, sp + 1, ln2⟩ '/' hA (show sp + 1 ≤ src.length by omega)]
        by_cases hm5 : (src.drop (sp + 1)).head? = some '/'
        · rw [if_pos hm5]
          simp only
          have h2lt : sp + 1 < src.length := head?_drop_lt src (sp + 1) '/' hm5
          obtain ⟨ln3, hAW⟩ := advance_while_ascii (fun ch => ch ≠ '\n')
            ⟨src, sp, sp + 1 + 1, ln2⟩ hA (show sp + 1 + 1 ≤ src.length by omega)
          rw [hAW]
          simp only
          set k := ((src.drop (sp + 1 + 1)).takeWhile (fun ch => ch ≠ '\n')).length with hk
          have hkb : k ≤ src.length - (sp + 1 + 1) := by
            have hsub : ((src.drop (sp + 1 + 1)).takeWhile (fun ch => ch ≠ '\n')).length ≤
                (src.drop (sp + 1 + 1)).length := (List.takeWhile_sublist _).length_le
            rw [List.length_drop] at hsub
            exact hsub
          obtain ⟨t, s2, heq, hout⟩ := ih sp (sp + 1 + 1 + k) ln3 (by omega) (by omega)
          exact ⟨t, s2, heq, AdvanceOut.mono src sp (sp + 1 + 1 + k) t s2 (by omega) hout⟩
        · rw [if_neg hm5]
          simp only
          exact arm_token_spec src hA .slash (by decide) sp (sp + 1) ln2 (by omega) (by omega)
      rw [if_neg hc15]
      by_cases hc16 : c = '"'
      · rw [if_pos hc16]
        exact string_token_ascii src hA sp ln2 hsplt
      rw [if_neg hc16]
      by_cases hc17 : c.isDigit = true
      · rw [if_pos hc17]
        exact number_token_ascii src hA sp ln2 c hc17 hh
      rw [if_neg hc17]
      by_cases hc18 : isIdentChar c = true
      · rw [if_pos hc18]
        exact ident_token_ascii src hA sp ln2 hsplt
      rw [if_neg hc18]
      exact arm_token_spec src hA .unknown (by decide) sp (sp + 1) ln2 (by omega) (by omega)

theorem advanceTok_at_end (src : List Char) (hA : ∀ x ∈ src, x.utf8Size = 1) (ln : Nat) :
    advanceTok ⟨src, src.length, src.length, ln⟩ =
      .ok (⟨.eof, [], ln⟩, ⟨src, src.length, src.length, ln⟩) := by
  rw [advanceTok, advanceFuel]
  have hclear : Selection.clear ⟨src, src.length, src.length, ln⟩ =
      ⟨src, src.length, src.length, ln⟩ := rfl
  rw [hclear, Selection.advance, peek_ascii ⟨src, src.length, src.length, ln⟩ hA (le_refl _)]
  rw [show (src.drop src.length).head? = none by simp]
  simp only
  rw [token_ascii .eof ⟨src, src.length, src.length, ln⟩ hA (le_refl _) (le_refl _)]
  simp

set_option maxHeartbeats 1000000 in
theorem lexAllFuel_spec (src : List Char) (hA : ∀ x ∈ src, x.utf8Size = 1) :
    ∀ (fuel b sp ln : Nat), sp ≤ src.length → src.length - sp < fuel →
    ∃ ps ln2, lexAllFuel fuel ⟨src, b, sp, ln⟩ =
        .ok (ps, ⟨src, src.length, src.length, ln2⟩) ∧
      ps ≠ [] ∧
      (∃ p, ps.getLast? = some p ∧ p.2.kind = .eof) ∧
      (ps.map (fun p => p.1 ++ p.2.lexeme)).flatten = src.drop sp := by
  intro fuel
  induction fuel with
  | zero =>
    intro b sp ln h1 h2
    omega
  | succ fuel ih =>
    intro b sp ln h1 h2
    rw [lexAllFuel, advanceTok]
    obtain ⟨t, s2, heq, hout⟩ := advanceFuel_spec src hA (byteLen src + 1) b sp ln h1
      (by rw [byteLen_ascii src hA]; omega)
    obtain ⟨a, b2, c2, d2⟩ := s2
    rw [show a = src from hout.1] at heq
    obtain ⟨_, hb1, hb2, hb3, hlex, heofc, hnec⟩ := hout
    have hb1 : sp ≤ b2 := hb1
    have hb2 : b2 ≤ c2 := hb2
    have hb3 : c2 ≤ src.length := hb3
    have hlex : t.lexeme = (src.drop b2).take (c2 - b2) := hlex
    rw [heq]
    simp only
    rw [sliceBytes_ascii src sp b2 hA hb1 (by omega)]
    simp only [Option.getD_some]
    by_cases hkind : t.kind = .eof
    · rw [if_pos hkind]
      have hc2 : c2 = src.length := (heofc hkind).1
      have hb2c : b2 = c2 := (heofc hkind).2
      subst hc2
      subst hb2c
      refine ⟨_, d2, rfl, by simp, ⟨_, List.getLast?_singleton _, hkind⟩, ?_⟩
      simp only [List.map_cons, List.map_nil, List.flatten]
      rw [hlex]
      simp [List.drop_length]
    · rw [if_neg hkind]
      have hlt : sp < c2 := hnec hkind
      obtain ⟨ps', ln2, hrec, hne0, ⟨p, hp, hpk⟩, hflat⟩ := ih b2 c2 d2 hb3 (by omega)
      rw [hrec]
      simp only
      refine ⟨_, ln2, rfl, by simp, ?_, ?_⟩
      · cases ps' with
        | nil => exact absurd rfl hne0
        | cons r rs =>
          refine ⟨p, ?_, hpk⟩
          rw [List.getLast?_cons_cons]
          exact hp
      · simp only [List.map_cons, List.flatten_cons]
        rw [hflat, hlex, slice_split src sp b2 c2 hb1 hb2]
        have hdd : src.drop c2 = (src.drop sp).drop (c2 - sp) := by
          rw [List.drop_drop]
          congr 1
          omega
        rw [hdd, List.take_append_drop]

/-- Claim C7, counterexample.  The claim says lexing never fails for any
input string.  On the one-character source `é` (a two-byte character),
`LexerInner::advance` moves the selection end one *byte* forward and then
slices the source at that offset, which is not a character boundary: the
lexer panics. -/
theorem c7_lexing_total_counterexample :
    advanceTok (Selection.new ['é']) = .panicked := by decide

/-- C7 (amended to ASCII sources): for every source whose characters are
all single-byte, lexing is total — `lex_all` succeeds, the token sequence
is nonempty and ends with `Eof`, concatenating each token's skipped
prefix (whitespace and comments) with its lexeme reproduces the source
exactly, and from the end-of-input selection every further `advance`
returns `Eof` again with the selection unchanged. -/
theorem c7_lexing_total_ascii_round_trip (src : List Char)
    (hA : ∀ x ∈ src, x.utf8Size = 1) :
    ∃ ps ln2, lexAll src = .ok (ps, ⟨src, src.length, src.length, ln2⟩) ∧
      ps ≠ [] ∧
      (∃ p, ps.getLast? = some p ∧ p.2.kind = .eof) ∧
      (ps.map (fun p => p.1 ++ p.2.lexeme)).flatten = src ∧
      (∀ ln3, advanceTok ⟨src, src.length, src.length, ln3⟩ =
        .ok (⟨.eof, [], ln3⟩, ⟨src, src.length, src.length, ln3⟩)) := by
  obtain ⟨ps, ln2, heq, hne, hlast, hflat⟩ :=
    lexAllFuel_spec src hA (byteLen src + 2) 0 0 1 (by omega)
      (by rw [byteLen_ascii src hA]; omega)
  rw [List.drop_zero] at hflat
  exact ⟨ps, ln2, heq, hne, hlast, hflat, fun ln3 => advanceTok_at_end src hA ln3⟩

/-- Witness for `c7_lexing_total_ascii_round_trip` on the concrete ASCII
source `print 1;`. -/
theorem c7_lexing_total_ascii_round_trip_witness :
    (∀ x ∈ "print 1;".data, x.utf8Size = 1) ∧
    (∃ ps ln2, lexAll "print 1;".data =
        .ok (ps, ⟨"print 1;".data, "print 1;".data.length, "print 1;".data.length, ln2⟩) ∧
      ps ≠ [] ∧
      (∃ p, ps.getLast? = some p ∧ p.2.kind = .eof) ∧
      (ps.map (fun p => p.1 ++ p.2.lexeme)).flatten = "print 1;".data ∧
      (∀ ln3, advanceTok ⟨"print 1;".data, "print 1;".data.length,
          "print 1;".data.length, ln3⟩ =
        .ok (⟨.eof, [], ln3⟩, ⟨"print 1;".data, "print 1;".data.length,
          "print 1;".data.length, ln3⟩))) :=
  ⟨by decide, c7_lexing_total_ascii_round_trip ("print 1;".data) (by decide)⟩

end Lexer


/-! ## `unlox-interpreter`

The tree-walk evaluator of `unlox-interpreter/src/lib.rs`.  `lib.rs` is
present in the crate sources, but two of its dependencies are not: the
`unlox_ast` version it imports (one with `Stmt::Function`, `Stmt::Return`
and a payload-carrying `Stmt::ParseErr`), and the `env::EnvCactus`
module it uses (the `env.rs` on disk defines the unrelated `EnvTree`
treated above).  Those missing pieces are reconstructed here: the extra
AST variants and the environment-cactus operations follow the spec
(§2, §4.5, §4.6, §4.7) and carry a "Modelled from the spec" note;
everything `lib.rs` and `val.rs` spell out — statement and expression
semantics, evaluation order, error construction, output formatting — is
translated from those files directly.  `f64` is modelled by `ℚ` (exact
for every value produced in the runs below); the wall-clock reading of
`Clock` is a parameter of the evaluation context. -/

namespace Interp

/-- Modelled from the spec (§2 Data model, §4.6): the statement arena
entries the interpreter matches on — the `Stmt` of `unlox-ast` extended
with `Function`, `Return` and a token-and-message `ParseErr`. -/
inductive Stmt where
| If (cond : Nat) (then_branch : Nat) (else_branch : Option Nat)
| While (cond : Nat) (body : Nat)
| Print (e : Nat)
| Return (tok : Token) (e : Option Nat)
| VarDecl (name : Token) (init : Option Nat)
| Expression (e : Nat)
| Block (stmts : List Nat)
| Function (name : Token) (params : List Token) (body : List Nat)
| ParseErr (tok : Token) (msg : String)
deriving DecidableEq

/-- The arena as in `unlox-ast`, with the extended statements; the
expression pool is the `Expr` of `unlox-ast` unchanged. -/
structure Ast where
stmts : List Stmt
exprs : List UnloxAst.Expr
roots : List Nat
deriving DecidableEq

def Ast.stmt (a : Ast) (idx : Nat) : Option Stmt := a.stmts[idx]?

def Ast.expr (a : Ast) (idx : Nat) : Option UnloxAst.Expr := a.exprs[idx]?

/-- `Callable` as `lib.rs` constructs and matches it: `Clock` (present in
`val.rs`) and the user function — name text, parameter tokens and body
statement indices, with **no closure field** (`lib.rs` line 136–141
builds exactly these three fields). -/
inductive Callable where
| Clock
| Function (name : String) (params : List Token) (body : List Nat)
deriving DecidableEq

/-- `Val` (val.rs). -/
inductive Val where
| Number (n : ℚ)
| String (s : String)
| Bool (b : Bool)
| Nil
| Callable (c : Callable)
deriving DecidableEq

/-- `Val::is_truthy` (val.rs): everything but `Nil` and `false`. -/
def Val.is_truthy (v : Val) :=
match v with
| .Nil => false
| .Bool false => false
| _ => true

/-- `impl From<Lit> for Val` (val.rs). -/
def Val.ofLit : Lit → Val
| .string s => .String s
| .number n => .Number n
| .bool b => .Bool b
| .nil => .Nil

/-- `Callable::arity`: `Clock` is 0 (val.rs); a user function's arity is
its parameter count — modelled from the spec (§2: "user functions =
|params|"). -/
def Callable.arity : Callable → Nat
| .Clock => 0
| .Function _ params _ => params.length

/-- Rendering of a number under Rust's `{}` for `f64`, restricted to the
integral values every run below produces (Rust prints `6_f64` as `6`).
A non-integral rational falls back to a fraction rendering; no theorem
below evaluates `numToString` off the integral case. -/
def numToString (q : ℚ) : String :=
if q.den = 1 then (if q.num < 0 then "-" else "") ++ Nat.repr q.num.natAbs
else (if q.num < 0 then "-" else "") ++ Nat.repr q.num.natAbs ++ "/" ++ Nat.repr q.den

/-- `impl Display for Callable` (val.rs): `writeln!(f, "<native fn>")` —
the trailing newline is part of the rendering.  The user-function arm
follows the spec's `<fn NAME>` (§6). -/
def Callable.display : Callable → String
| .Clock => "<native fn>" ++ "\n"
| .Function name _ _ => "<fn " ++ name ++ ">" ++ "\n"

/-- `impl Display for Val` (val.rs lines 38–48): every arm uses
`writeln!`, so the rendered value always ends in a newline of its own. -/
def Val.display (v : Val) :=
match v with
| .Number v => numToString v ++ "\n"
| .String v => v ++ "\n"
| .Bool v => (if v then "true" else "false") ++ "\n"
| .Nil => "nil" ++ "\n"
| .Callable c => c.display ++ "\n"

/-- `Error` (lib.rs lines 15–35). -/
inductive Error where
| ExpectedNumber (operator : Token)
| ExpectedNumbers (operator : Token)
| ExpectedNumbersOrStrings (operator : Token)
| UndefinedVariable (name : String) (token : Token)
| BadCall (paren : Token)
| WrongNumberOfArgs (paren : Token) (expected got : Nat)
| Parsing (token : Token) (msg : String)
deriving DecidableEq

/-- The `thiserror`-generated display strings of `Error` (the
`#[error(...)]` attributes in lib.rs lines 15–35). -/
def Error.display : Error → String
| .ExpectedNumber op => "[Line " ++ Nat.repr op.line ++ "]: Operand must be a number."
| .ExpectedNumbers op => "[Line " ++ Nat.repr op.line ++ "]: Operands must be numbers."
| .ExpectedNumbersOrStrings op =>
  "[Line " ++ Nat.repr op.line ++ "]: Operands must be two numbers or two strings."
| .UndefinedVariable name tok =>
  "[Line " ++ Nat.repr tok.line ++ "]: Undefined variable " ++ name ++ "."
| .BadCall paren => "[Line " ++ Nat.repr paren.line ++ "]: Can only call functions and classes."
| .WrongNumberOfArgs paren expected got =>
  "[Line " ++ Nat.repr paren.line ++ "]: Expected " ++ Nat.repr expected ++
    " arguments but got " ++ Nat.repr got ++ "."
| .Parsing tok msg =>
  "[Line " ++ Nat.repr tok.line ++ "]: The program terminated due to a syntax error: " ++ msg

/-- An environment frame: `name → Val`.  The `HashMap` is modelled by an
association list read through its first match; `define_var` prepends,
which a first-match lookup observes exactly as insert-or-overwrite. -/
abbrev Env := List (String × Val)

/-- `Env::define_var`. -/
def defineVar (e : Env) (name : String) (v : Val) : Env := (name, v) :: e

def lookupVar : Env → String → Option Val
| [], _ => none
| (n, v) :: rest, name => if n = name then some v else lookupVar rest name

/-- Overwrite the first binding of `name`; `none` when absent. -/
def assignVar : Env → String → Val → Option Env
| [], _, _ => none
| (n, v) :: rest, name, w =>
  if n = name then some ((n, w) :: rest)
  else (assignVar rest name w).map ((n, v) :: ·)

/-- The environment cactus of `lib.rs` is the source-translated `Cactus`
above holding frames. -/
abbrev EnvCactus := Cactus Env

/-- Modelled from the spec (§4.5): the cactus starts with the root
("global") frame as its only node and only stack entry. -/
def with_global (env : Env) : EnvCactus := (Cactus.push Cactus.new env).2

/-- Modelled from the spec (§4.5, §8): `global()` returns the root
frame's index, stable across the session; `with_global` creates the root
first, so its slab index is 0. -/
def globalIdx : Nat := 0

/-- Modelled from the spec (§4.5): variable lookup walks from frame `i`
toward the root and returns the first binding.  The fuel bounds the
walk; every chain in the runs below is shorter than the node count. -/
def varAt (c : EnvCactus) : Nat → Nat → String → Option Val
| 0, _, _ => none
| fuel+1, i, name =>
  match c.nodeData i with
  | none => none
  | some env =>
    match lookupVar env name with
    | some v => some v
    | none =>
      match c.parent i with
      | some p => varAt c fuel p name
      | none => none

/-- `EnvCactus::var` as `lib.rs` calls it: look the name up from the
active frame. -/
def cactusVar (c : EnvCactus) (name : String) : Option Val :=
match c.current with
| some i => varAt c (c.nodes.entries.length + 1) i name
| none => none

/-- Modelled from the spec (§4.5): assignment walks the same chain and
overwrites in the defining frame; `none` means undefined. -/
def assignAt (c : EnvCactus) : Nat → Nat → String → Val → Option EnvCactus
| 0, _, _, _ => none
| fuel+1, i, name, v =>
  match c.nodeData i with
  | none => none
  | some env =>
    match assignVar env name v with
    | some env2 => some (c.setNodeData i env2)
    | none =>
      match c.parent i with
      | some p => assignAt c fuel p name v
      | none => none

/-- `EnvCactus::assign_var`. -/
def cactusAssign (c : EnvCactus) (name : String) (v : Val) : Option EnvCactus :=
match c.current with
| some i => assignAt c (c.nodes.entries.length + 1) i name v
| none => none

/-- `current_env_mut().define_var(...)`: insert into the active frame;
`none` stands for the panic of dereferencing an empty stack. -/
def defineCurrent (c : EnvCactus) (name : String) (v : Val) : Option EnvCactus :=
match c.current with
| none => none
| some i =>
  match c.nodeData i with
  | none => none
  | some env => some (c.setNodeData i (defineVar env name v))

/-- `Ctx` (lib.rs): the source text the token lexemes index into, plus
the wall-clock reading `Clock` returns (`SystemTime::now()` made a
parameter).  Byte offsets coincide with character offsets because every
source below is ASCII. -/
structure Ctx where
src : List Char
clock : ℚ

/-- `&ctx.src[tok.lexeme]`. -/
def lexemeOf (src : List Char) (tok : Token) : String :=
String.mk ((src.drop tok.lexeme.1).take (tok.lexeme.2 - tok.lexeme.1))

structure IState where
env : EnvCactus
out : String
err : String
deriving DecidableEq

/-- `std::ops::ControlFlow<Val>` as `execute` returns it. -/
inductive CF where
| Continue
| Break (v : Val)
deriving DecidableEq

def CF.is_break : CF → Bool
| .Continue => false
| .Break _ => true

/-- Result of a fallible interpreter step: the error case keeps the
state (the Rust methods mutate `self` and the sinks in place, so output
written and environments mutated before the error survive it);
`panicked` models arena/stack panics, `oom` fuel exhaustion. -/
inductive IRes (α : Type) where
| ok (a : α) (st : IState)
| err (e : Error) (st : IState)
| panicked
| oom
deriving DecidableEq

/-- `new_global_env` (lib.rs): the global frame holds `clock`. -/
def new_global_env : Env := defineVar [] "clock" (.Callable .Clock)

def initState : IState := ⟨with_global new_global_env, "", ""⟩

mutual

/-- `Interpreter::execute` (lib.rs lines 78–153). -/
def execute : Nat → Ctx → Ast → Nat → IState → IRes CF
| 0, _, _, _, _ => .oom
| fuel+1, ctx, ast, si, st =>
  match ast.stmt si with
  | none => .panicked
  | some s =>
    match s with
    | .If cond then_branch else_branch =>
      match evaluate fuel ctx ast cond st with
      | .ok v st1 =>
        if v.is_truthy then execute fuel ctx ast then_branch st1
        else
          match else_branch with
          | some e => execute fuel ctx ast e st1
          | none => .ok .Continue st1
      | .err e st1 => .err e st1
      | .panicked => .panicked
      | .oom => .oom
    | .While cond body => execWhile fuel ctx ast cond body st
    | .Print e =>
      match evaluate fuel ctx ast e st with
      | .ok v st1 => .ok .Continue { st1 with out := st1.out ++ v.display ++ "\n" }
      | .err e st1 => .err e st1
      | .panicked => .panicked
      | .oom => .oom
    | .Return _ e =>
      match e with
      | some e =>
        match evaluate fuel ctx ast e st with
        | .ok v st1 => .ok (.Break v) st1
        | .err e st1 => .err e st1
        | .panicked => .panicked
        | .oom => .oom
      | none => .ok (.Break .Nil) st
    | .VarDecl name init =>
      match
        (match init with
         | some e => evaluate fuel ctx ast e st
         | none => .ok .Nil st) with
      | .ok v st1 =>
        match defineCurrent st1.env (lexemeOf ctx.src name) v with
        | some c => .ok .Continue { st1 with env := c }
        | none => .panicked
      | .err e st1 => .err e st1
      | .panicked => .panicked
      | .oom => .oom
    | .Expression e =>
      match evaluate fuel ctx ast e st with
      | .ok _ st1 => .ok .Continue st1
      | .err e st1 => .err e st1
      | .panicked => .panicked
      | .oom => .oom
    | .Block stmts =>
      match st.env.current with
      | some p => execute_block fuel ctx ast stmts [] p st
      | none => .panicked
    | .Function name params body =>
      let callable := Callable.Function (lexemeOf ctx.src name) params body
      match defineCurrent st.env (lexemeOf ctx.src name) (.Callable callable) with
      | some c => .ok .Continue { st with env := c }
      | none => .panicked
    | .ParseErr tok msg => .err (.Parsing tok msg) st
termination_by structural fuel => fuel

/-- The `while` loop inside `execute`'s `Stmt::While` arm. -/
def execWhile : Nat → Ctx → Ast → Nat → Nat → IState → IRes CF
| 0, _, _, _, _, _ => .oom
| fuel+1, ctx, ast, cond, body, st =>
  match evaluate fuel ctx ast cond st with
  | .ok v st1 =>
    if v.is_truthy then
      match execute fuel ctx ast body st1 with
      | .ok cf st2 =>
        if cf.is_break then .ok cf st2 else execWhile fuel ctx ast cond body st2
      | .err e st2 => .err e st2
      | .panicked => .panicked
      | .oom => .oom
    else .ok .Continue st1
  | .err e st1 => .err e st1
  | .panicked => .panicked
  | .oom => .oom
termination_by structural fuel => fuel

/-- The statement loop shared by `execute_block`'s closure. -/
def execStmts : Nat → Ctx → Ast → List Nat → IState → IRes CF
| 0, _, _, _, _ => .oom
| _+1, _, _, [], st => .ok .Continue st
| fuel+1, ctx, ast, si :: rest, st =>
  match execute fuel ctx ast si st with
  | .ok cf st1 => if cf.is_break then .ok cf st1 else execStmts fuel ctx ast rest st1
  | .err e st1 => .err e st1
  | .panicked => .panicked
  | .oom => .oom
termination_by structural fuel => fuel

/-- `Interpreter::execute_block` (lib.rs lines 155–175): push a frame at
the given parent, run the statements, and pop on every exit — the
success and the error path alike. -/
def execute_block : Nat → Ctx → Ast → List Nat → Env → Nat → IState → IRes CF
| 0, _, _, _, _, _, _ => .oom
| fuel+1, ctx, ast, stmts, env, env_parent, st =>
  let st1 := { st with env := (st.env.pushAt env_parent env).2 }
  match execStmts fuel ctx ast stmts st1 with
  | .ok cf st2 => .ok cf { st2 with env := (st2.env.pop).2 }
  | .err e st2 => .err e { st2 with env := (st2.env.pop).2 }
  | .panicked => .panicked
  | .oom => .oom
termination_by structural fuel => fuel

/-- `Interpreter::evaluate` (lib.rs lines 177–290). -/
def evaluate : Nat → Ctx → Ast → Nat → IState → IRes Val
| 0, _, _, _, _ => .oom
| fuel+1, ctx, ast, ei, st =>
  match ast.expr ei with
  | none => .panicked
  | some e =>
    match e with
    | .Literal value => .ok (Val.ofLit value) st
    | .Grouping e => evaluate fuel ctx ast e st
    | .Unary operator right =>
      match evaluate fuel ctx ast right st with
      | .ok right st1 =>
        match operator.kind, right with
        | .bang, right => .ok (.Bool (!right.is_truthy)) st1
        | .minus, .Number n => .ok (.Number (-n)) st1
        | .minus, _ => .err (.ExpectedNumber operator) st1
        | _, _ => .panicked
      | .err e st1 => .err e st1
      | .panicked => .panicked
      | .oom => .oom
    | .Binary operator left right =>
      match evaluate fuel ctx ast left st with
      | .ok left st1 =>
        match evaluate fuel ctx ast right st1 with
        | .ok right st2 =>
          match operator.kind, left, right with
          | .minus, .Number l, .Number r => .ok (.Number (l - r)) st2
          | .slash, .Number l, .Number r => .ok (.Number (l / r)) st2
          | .star, .Number l, .Number r => .ok (.Number (l * r)) st2
          | .plus, .Number l, .Number r => .ok (.Number (l + r)) st2
          | .plus, .String l, .String r => .ok (.String (l ++ r)) st2
          | .greater, .Number l, .Number r => .ok (.Bool (decide (l > r))) st2
          | .greaterEqual, .Number l, .Number r => .ok (.Bool (decide (l ≥ r))) st2
          | .less, .Number l, .Number r => .ok (.Bool (decide (l < r))) st2
          | .lessEqual, .Number l, .Number r => .ok (.Bool (decide (l ≤ r))) st2
          | .bangEqual, l, r => .ok (.Bool (decide (l ≠ r))) st2
          | .equalEqual, l, r => .ok (.Bool (decide (l = r))) st2
          | .plus, _, _ => .err (.ExpectedNumbersOrStrings operator) st2
          | .greater, _, _ => .err (.ExpectedNumbers operator) st2
          | .greaterEqual, _, _ => .err (.ExpectedNumbers operator) st2
          | .less, _, _ => .err (.ExpectedNumbers operator) st2
          | .lessEqual, _, _ => .err (.ExpectedNumbers operator) st2
          | .minus, _, _ => .err (.ExpectedNumbers operator) st2
          | .slash, _, _ => .err (.ExpectedNumbers operator) st2
          | .star, _, _ => .err (.ExpectedNumbers operator) st2
          | _, _, _ => .panicked
        | .err e st2 => .err e st2
        | .panicked => .panicked
        | .oom => .oom
      | .err e st1 => .err e st1
      | .panicked => .panicked
      | .oom => .oom
    | .Variable var =>
      match cactusVar st.env (lexemeOf ctx.src var) with
      | some v => .ok v st
      | none => .err (.UndefinedVariable (lexemeOf ctx.src var) var) st
    | .Assign var value =>
      match evaluate fuel ctx ast value st with
      | .ok v st1 =>
        match cactusAssign st1.env (lexemeOf ctx.src var) v with
        | some c => .ok v { st1 with env := c }
        | none => .err (.UndefinedVariable (lexemeOf ctx.src var) var) st1
      | .err e st1 => .err e st1
      | .panicked => .panicked
      | .oom => .oom
    | .Logical operator left right =>
      match evaluate fuel ctx ast left st with
      | .ok left st1 =>
        match operator.kind, left.is_truthy with
        | .or, true => .ok left st1
        | .or, false => evaluate fuel ctx ast right st1
        | _, false => .ok left st1
        | _, _ => evaluate fuel ctx ast right st1
      | .err e st1 => .err e st1
      | .panicked => .panicked
      | .oom => .oom
    | .Call callee paren args =>
      match evaluate fuel ctx ast callee st with
      | .ok callee_val st1 =>
        match callee_val with
        | .Callable callable =>
          match evalArgs fuel ctx ast args st1 with
          | .ok args st2 =>
            if args.length ≠ callable.arity then
              .err (.WrongNumberOfArgs paren callable.arity args.length) st2
            else call fuel ctx ast callable args st2
          | .err e st2 => .err e st2
          | .panicked => .panicked
          | .oom => .oom
        | _ => .err (.BadCall paren) st1
      | .err e st1 => .err e st1
      | .panicked => .panicked
      | .oom => .oom
termination_by structural fuel => fuel

/-- The `args.iter().map(evaluate).collect::<Result<Vec<_>>>()` of the
`Call` arm: left-to-right, stopping at the first error. -/
def evalArgs : Nat → Ctx → Ast → List Nat → IState → IRes (List Val)
| 0, _, _, _, _ => .oom
| _+1, _, _, [], st => .ok [] st
| fuel+1, ctx, ast, a :: rest, st =>
  match evaluate fuel ctx ast a st with
  | .ok v st1 =>
    match evalArgs fuel ctx ast rest st1 with
    | .ok vs st2 => .ok (v :: vs) st2
    | .err e st2 => .err e st2
    | .panicked => .panicked
    | .oom => .oom
  | .err e st1 => .err e st1
  | .panicked => .panicked
  | .oom => .oom
termination_by structural fuel => fuel

/-- `Interpreter::call` (lib.rs lines 292–320).  The fresh frame of a
user-function call is parented at `self.env_tree.global()` — the global
frame, not a closure frame (`Callable::Function` carries no closure
field). -/
def call : Nat → Ctx → Ast → Callable → List Val → IState → IRes Val
| 0, _, _, _, _, _ => .oom
| fuel+1, ctx, ast, callable, args, st =>
  match callable with
  | .Clock => .ok (.Number ctx.clock) st
  | .Function _ params body =>
    let env := (params.zip args).foldl
      (fun e pa => defineVar e (lexemeOf ctx.src pa.1) pa.2) []
    match execute_block fuel ctx ast body env globalIdx st with
    | .ok .Continue st1 => .ok .Nil st1
    | .ok (.Break v) st1 => .ok v st1
    | .err e st1 => .err e st1
    | .panicked => .panicked
    | .oom => .oom
termination_by structural fuel => fuel

end

/-- Result of `Interpreter::interpret`: the final state, or a modelled
panic / fuel exhaustion. -/
inductive IRun where
| done (st : IState)
| panicked
| oom
deriving DecidableEq

/-- The root-statement loop of `Interpreter::interpret` (lib.rs lines
69–76): `if let Err(error) = execute(..) { writeln!(err, "{error}");
return; }` — an `Ok` control flow (`Break` included) is ignored and the
loop continues; the first error is written to the diagnostic sink as one
terminated line and stops everything. -/
def interpretGo : Nat → Ctx → Ast → List Nat → IState → IRun
| _, _, _, [], st => .done st
| fuel, ctx, ast, si :: rest, st =>
  match execute fuel ctx ast si st with
  | .ok _ st1 => interpretGo fuel ctx ast rest st1
  | .err e st1 => .done { st1 with err := st1.err ++ e.display ++ "\n" }
  | .panicked => .panicked
  | .oom => .oom

/-- `Interpreter::interpret`. -/
def interpret (fuel : Nat) (ctx : Ctx) (ast : Ast) (st : IState) : IRun :=
interpretGo fuel ctx ast ast.roots st


/-- Stdout of a finished run. -/
def IRun.finalOut (r : IRun) : Option String :=
match r with
| .done st => some st.out
| _ => none

/-- Diagnostic sink of a finished run. -/
def IRun.finalErr (r : IRun) : Option String :=
match r with
| .done st => some st.err
| _ => none

/-- A variable's value, resolved from the active frame of a finished
run's environment tree. -/
def IRun.finalVar (r : IRun) (name : String) : Option Val :=
match r with
| .done st => cactusVar st.env name
| _ => none

/-- The program `print 2 + 2 * 2;` as the parser arenas it. -/
def c8Ast : Ast :=
⟨[.Print 4],
 [.Literal (.number 2), .Literal (.number 2), .Literal (.number 2),
  .Binary ⟨.star, (12, 13), 1⟩ 1 2, .Binary ⟨.plus, (8, 9), 1⟩ 0 3],
 [0]⟩

/-- Claim C8.  The claim says `print 2 + 2 * 2;` writes exactly `6\n` to
stdout.  The expression does evaluate to 6 and `Stmt::Print` appends one
newline — but `impl Display for Val` renders the value with `writeln!`,
which already ends the rendering in a newline of its own, so the program
writes `6\n\n`: one more byte than the claim (and the repository's own
integration test) expects. -/
theorem c8_print_output_has_extra_newline :
    (interpret 9 ⟨"print 2 + 2 * 2;".data, 0⟩ c8Ast initState).finalOut =
        some ("6" ++ "\n" ++ "\n") ∧
    (interpret 9 ⟨"print 2 + 2 * 2;".data, 0⟩ c8Ast initState).finalErr = some "" ∧
    ("6" ++ "\n" ++ "\n" : String) ≠ "6" ++ "\n" := by with_unfolding_all decide


/-- Claim C6.  Short-circuit logical operators, exactly as
`Interpreter::evaluate`'s `Expr::Logical` arm decides them: `or` with a
truthy left operand and `and` with a falsey left operand return the left
value with the state unchanged from the left evaluation — the right
operand is never evaluated, so it contributes no side effects and no
errors; in the other two cases the result is exactly the evaluation of
the right operand from the post-left state. -/
theorem c6_short_circuit (fuel : Nat) (ctx : Ctx) (ast : Ast) (ei : Nat)
    (op : Token) (l r : Nat) (v : Val) (st st1 : IState)
    (hnode : ast.expr ei = some (.Logical op l r))
    (hl : evaluate fuel ctx ast l st = .ok v st1) :
    ((op.kind = .or ∧ v.is_truthy = true) →
      evaluate (fuel + 1) ctx ast ei st = .ok v st1) ∧
    ((op.kind = .or ∧ v.is_truthy = false) →
      evaluate (fuel + 1) ctx ast ei st = evaluate fuel ctx ast r st1) ∧
    ((op.kind = .and ∧ v.is_truthy = false) →
      evaluate (fuel + 1) ctx ast ei st = .ok v st1) ∧
    ((op.kind = .and ∧ v.is_truthy = true) →
      evaluate (fuel + 1) ctx ast ei st = evaluate fuel ctx ast r st1) := by
  refine ⟨?_, ?_, ?_, ?_⟩ <;> rintro ⟨hk, ht⟩ <;>
    rw [evaluate, hnode] <;> simp only <;> rw [hl] <;> simp only <;> rw [hk, ht]

/-- The expression `true or 1` for the C6 witness. -/
def c6Ast : Ast :=
⟨[], [.Literal (.bool true), .Literal (.number 1), .Logical ⟨.or, (0, 0), 1⟩ 0 1], []⟩

/-- Witness for `c6_short_circuit` on `true or 1`. -/
theorem c6_short_circuit_witness :
    (c6Ast.expr 2 = some (.Logical ⟨.or, (0, 0), 1⟩ 0 1)) ∧
    (evaluate 1 ⟨[], 0⟩ c6Ast 0 initState = .ok (.Bool true) initState) ∧
    ((((⟨.or, (0, 0), 1⟩ : Token).kind = .or ∧ (Val.Bool true).is_truthy = true) →
      evaluate 2 ⟨[], 0⟩ c6Ast 2 initState = .ok (.Bool true) initState) ∧
    (((⟨.or, (0, 0), 1⟩ : Token).kind = .or ∧ (Val.Bool true).is_truthy = false) →
      evaluate 2 ⟨[], 0⟩ c6Ast 2 initState = evaluate 1 ⟨[], 0⟩ c6Ast 1 initState) ∧
    (((⟨.or, (0, 0), 1⟩ : Token).kind = .and ∧ (Val.Bool true).is_truthy = false) →
      evaluate 2 ⟨[], 0⟩ c6Ast 2 initState = .ok (.Bool true) initState) ∧
    (((⟨.or, (0, 0), 1⟩ : Token).kind = .and ∧ (Val.Bool true).is_truthy = true) →
      evaluate 2 ⟨[], 0⟩ c6Ast 2 initState = evaluate 1 ⟨[], 0⟩ c6Ast 1 initState)) :=
  ⟨by decide, by decide,
   c6_short_circuit 1 ⟨[], 0⟩ c6Ast 2 ⟨.or, (0, 0), 1⟩ 0 1 (.Bool true) initState initState
     (by decide) (by decide)⟩


/-- Claim C5 (amended).  Evaluation order of a call in
`Interpreter::evaluate`'s `Expr::Call` arm: the callee first, then the
callable-ness check — but the arguments are evaluated **before** the
arity check, so a wrong-arity call raises `WrongNumberOfArgs` only after
the arguments' side effects have happened; the error state is the
post-arguments state. -/
theorem c5_arity_checked_after_args (fuel : Nat) (ctx : Ctx) (ast : Ast) (ei : Nat)
    (ce : Nat) (paren : Token) (args : List Nat) (cal : Callable) (vs : List Val)
    (st st1 st2 : IState)
    (hnode : ast.expr ei = some (.Call ce paren args))
    (hcallee : evaluate fuel ctx ast ce st = .ok (.Callable cal) st1)
    (hargs : evalArgs fuel ctx ast args st1 = .ok vs st2)
    (harity : vs.length ≠ cal.arity) :
    evaluate (fuel + 1) ctx ast ei st =
      .err (.WrongNumberOfArgs paren cal.arity vs.length) st2 := by
  rw [evaluate, hnode]
  simp only
  rw [hcallee]
  simp only
  rw [hargs]
  simp only
  rw [if_pos harity]

/-- The program `var x = 1; clock(x = 2);`: `clock` has arity 0, yet the
argument assignment runs before the arity error. -/
def c5Ast : Ast :=
⟨[.VarDecl ⟨.identifier, (4, 5), 1⟩ (some 0), .Expression 4],
 [.Literal (.number 1), .Literal (.number 2),
  .Assign ⟨.identifier, (17, 18), 1⟩ 1,
  .Variable ⟨.identifier, (11, 16), 1⟩,
  .Call 3 ⟨.rightParen, (22, 23), 1⟩ [2]],
 [0, 1]⟩

def c5Src : List Char := "var x = 1; clock(x = 2);".data

/-- Claim C5, counterexample.  The claim says a wrong-arity call fails
without evaluating the arguments' side effects.  Running
`var x = 1; clock(x = 2);` raises the arity error — and the session ends
with `x` bound to 2: the argument's assignment did run. -/
theorem c5_arity_counterexample :
    (interpret 9 ⟨c5Src, 0⟩ c5Ast initState).finalErr =
        some ("[Line 1]: Expected 0 arguments but got 1." ++ "\n") ∧
    (interpret 9 ⟨c5Src, 0⟩ c5Ast initState).finalVar "x" = some (.Number 2) ∧
    (interpret 9 ⟨c5Src, 0⟩ c5Ast initState).finalOut = some "" := by decide

/-- The call `clock(2)` for the C5 witness. -/
def c5WAst : Ast :=
⟨[], [.Variable ⟨.identifier, (0, 5), 1⟩, .Literal (.number 2),
      .Call 0 ⟨.rightParen, (7, 8), 1⟩ [1]], []⟩

/-- Witness for `c5_arity_checked_after_args` on `clock(2)`. -/
theorem c5_arity_checked_after_args_witness :
    (c5WAst.expr 2 = some (.Call 0 ⟨.rightParen, (7, 8), 1⟩ [1])) ∧
    (evaluate 3 ⟨"clock(2);".data, 0⟩ c5WAst 0 initState =
      .ok (.Callable .Clock) initState) ∧
    (evalArgs 3 ⟨"clock(2);".data, 0⟩ c5WAst [1] initState =
      .ok [.Number 2] initState) ∧
    (([Val.Number 2].length ≠ Callable.Clock.arity) ∧
     evaluate 4 ⟨"clock(2);".data, 0⟩ c5WAst 2 initState =
      .err (.WrongNumberOfArgs ⟨.rightParen, (7, 8), 1⟩ Callable.Clock.arity
        [Val.Number 2].length) initState) :=
  ⟨by decide, by decide, by decide,
   by decide,
   c5_arity_checked_after_args 3 ⟨"clock(2);".data, 0⟩ c5WAst 2 0
     ⟨.rightParen, (7, 8), 1⟩ [1] .Clock [.Number 2] initState initState initState
     (by decide) (by decide) (by decide) (by decide)⟩


/-- Successful execution of a prefix of root statements, exactly as the
`interpret` loop treats them: every control flow outcome (`Break`
included) continues the iteration. -/
def runPrefix (fuel : Nat) (ctx : Ctx) (ast : Ast) : List Nat → IState → Option IState
| [], st => some st
| si :: rest, st =>
  match execute fuel ctx ast si st with
  | .ok _ st1 => runPrefix fuel ctx ast rest st1
  | _ => none

/-- Claim C3.  `Interpreter::interpret` runs the root statements in
order; when one raises a runtime error, the loop writes that error's
display plus a newline — one terminated line — to the diagnostic sink
and returns at once: the statements after the failing one never execute,
and the stdout text written before the error (`st2.out`) is exactly the
stdout of the final state. -/
theorem c3_runtime_error_halts (fuel : Nat) (ctx : Ctx) (ast : Ast)
    (pre post : List Nat) (sf : Nat) (e : Error) (st0 st1 st2 : IState)
    (hpre : runPrefix fuel ctx ast pre st0 = some st1)
    (herr : execute fuel ctx ast sf st1 = .err e st2) :
    interpretGo fuel ctx ast (pre ++ sf :: post) st0 =
      .done { st2 with err := st2.err ++ e.display ++ "\n" } := by
  induction pre generalizing st0 with
  | nil =>
    rw [runPrefix] at hpre
    rw [Option.some.injEq] at hpre
    subst hpre
    rw [List.nil_append, interpretGo, herr]
  | cons p ps ih =>
    rw [runPrefix] at hpre
    rw [List.cons_append, interpretGo]
    cases hex : execute fuel ctx ast p st0 with
    | ok cf stx =>
      rw [hex] at hpre
      simp only at hpre
      simp only
      exact ih stx hpre
    | err e2 stx => rw [hex] at hpre; simp at hpre
    | panicked => rw [hex] at hpre; simp at hpre
    | oom => rw [hex] at hpre; simp at hpre

/-- The program `print "hi"; <parse-error placeholder>; print "bye";`
for the C3 witness: the placeholder raises `Error::Parsing`, so the
third statement never runs and `hi`'s output survives. -/
def c3Ast : Ast :=
⟨[.Print 0, .ParseErr ⟨.semicolon, (11, 12), 1⟩ "Expected expression.", .Print 1],
 [.Literal (.string "hi"), .Literal (.string "bye")],
 [0, 1, 2]⟩

/-- Witness for `c3_runtime_error_halts` on the program above. -/
theorem c3_runtime_error_halts_witness :
    (runPrefix 9 ⟨[], 0⟩ c3Ast [0] initState =
      some { initState with out := "" ++ ("hi" ++ "\n") ++ "\n" }) ∧
    (execute 9 ⟨[], 0⟩ c3Ast 1 { initState with out := "" ++ ("hi" ++ "\n") ++ "\n" } =
      .err (.Parsing ⟨.semicolon, (11, 12), 1⟩ "Expected expression.")
        { initState with out := "" ++ ("hi" ++ "\n") ++ "\n" }) ∧
    interpretGo 9 ⟨[], 0⟩ c3Ast ([0] ++ 1 :: [2]) initState =
      .done { { initState with out := "" ++ ("hi" ++ "\n") ++ "\n" } with
        err := ({ initState with out := "" ++ ("hi" ++ "\n") ++ "\n" }).err ++
          (Error.Parsing ⟨.semicolon, (11, 12), 1⟩ "Expected expression.").display ++ "\n" } :=
  ⟨by decide, by decide,
   c3_runtime_error_halts 9 ⟨[], 0⟩ c3Ast [0] [2] 1
     (.Parsing ⟨.semicolon, (11, 12), 1⟩ "Expected expression.")
     initState { initState with out := "" ++ ("hi" ++ "\n") ++ "\n" }
     { initState with out := "" ++ ("hi" ++ "\n") ++ "\n" }
     (by decide) (by decide)⟩


/-- The program `var x = w; fun f() \x7b print x; \x7d \x7b var x = v; f(); \x7d`
over the source text `var x = 1; fun f() \x7b print x; \x7d \x7b var x = 2; f(); \x7d`
(the literal payloads are the parameters `w` and `v`; the lexeme ranges
only ever resolve identifier names). -/
def c1Ast (w v : ℚ) : Ast :=
⟨[.Print 1,
  .VarDecl ⟨.identifier, (4, 5), 1⟩ (some 0),
  .Function ⟨.identifier, (15, 16), 1⟩ [] [0],
  .VarDecl ⟨.identifier, (38, 39), 1⟩ (some 2),
  .Expression 4,
  .Block [3, 4]],
 [.Literal (.number w), .Variable ⟨.identifier, (27, 28), 1⟩,
  .Literal (.number v), .Variable ⟨.identifier, (45, 46), 1⟩,
  .Call 3 ⟨.rightParen, (47, 48), 1⟩ []],
 [1, 2, 5]⟩

def c1Src : List Char := "var x = 1; fun f() { print x; } { var x = 2; f(); }".data

/-- Claim C1 (amended).  The fresh frame of a user-function call is
parented at the **global** frame, not at a closure frame
(`Callable::Function` has no closure field; `Interpreter::call` passes
`self.env_tree.global()` to `execute_block`).  Consequently a function
defined at top level observes the global binding of a free variable and
not a caller's shadowing one: running
`var x = 1; fun f() \x7b print x; \x7d \x7b var x = 2; f(); \x7d` prints the
global `1` — not the call site's `2` — errors nothing, and leaves the
global `x` at 1. -/
theorem c1_call_frame_parented_at_global :
    (interpret 20 ⟨c1Src, 0⟩ (c1Ast 1 2) initState).finalOut =
        some ("1" ++ "\n" ++ "\n") ∧
    (interpret 20 ⟨c1Src, 0⟩ (c1Ast 1 2) initState).finalErr = some "" ∧
    (interpret 20 ⟨c1Src, 0⟩ (c1Ast 1 2) initState).finalVar "x" =
        some (.Number 1) := by decide

/-- The program
`\x7b var x = 1; fun f() \x7b print x; \x7d \x7b var x = 2; f(); \x7d \x7d`:
`f` is defined in a block scope S binding `x`, and called from an inner
scope S2 that rebinds `x`. -/
def c1CxAst : Ast :=
⟨[.Print 1,
  .VarDecl ⟨.identifier, (6, 7), 1⟩ (some 0),
  .Function ⟨.identifier, (17, 18), 1⟩ [] [0],
  .VarDecl ⟨.identifier, (40, 41), 1⟩ (some 2),
  .Expression 4,
  .Block [3, 4],
  .Block [1, 2, 5]],
 [.Literal (.number 1), .Variable ⟨.identifier, (29, 30), 1⟩,
  .Literal (.number 2), .Variable ⟨.identifier, (47, 48), 1⟩,
  .Call 3 ⟨.rightParen, (49, 50), 1⟩ []],
 [6]⟩

def c1CxSrc : List Char :=
"{ var x = 1; fun f() { print x; } { var x = 2; f(); } }".data

/-- Claim C1, counterexample.  The claim says `f`'s free `x` resolves
against the frame active at `f`'s definition (here the outer block,
where `x = 1`), so the program should print `1`.  Instead the call frame
is parented at the global frame, where no `x` exists: the run prints
nothing and halts with `[Line 1]: Undefined variable x.`. -/
theorem c1_lexical_scoping_counterexample :
    (interpret 20 ⟨c1CxSrc, 0⟩ c1CxAst initState).finalErr =
        some ("[Line 1]: Undefined variable x." ++ "\n") ∧
    (interpret 20 ⟨c1CxSrc, 0⟩ c1CxAst initState).finalOut = some "" := by decide

end Interp

end Unlox

